import Mathlib

/-!
# elasticsearch-fitter: the free-space check and the choice of the index to delete

A shallow embedding of `src/main.go`.

* HTTP transport and JSON decoding are not embedded.  A function that performs a request
  receives the outcome of that request (already decoded) as an argument and reports the
  requests it issues in its result.
* A Go `map` is ranged over in an unspecified order.  A map is embedded as the list of its
  entries in the order in which the `range` loop visits them, so every statement that is
  quantified over that list holds for every iteration order.
* `int64` values are embedded as `Int`, with the two's-complement wrap-around written out.
  A run-time panic (which terminates the process) is an explicit outcome.
* The standard-library functions that the program calls (`regexp`, `time.Parse`,
  `time.Time.Before`, `time.Time.Format`, `sort.Sort`) are embedded from their Go
  definitions, specialised to the regular expression and the layout that occur in the source.
-/

namespace Fitter

/-! ## Machine integers and panics -/

/-- Two's-complement reduction of an integer into the `int64` range. -/
def wrapInt64 (x : Int) : Int := (x + 2 ^ 63) % 2 ^ 64 - 2 ^ 63

/-- The outcome of running a Go function: it returns a value, or the goroutine panics
(an unrecovered panic terminates the process). -/
inductive Outcome (α : Type) where
  | returned (a : α)
  | panicked (msg : String)
  deriving DecidableEq, Repr

/-- Go `int64` multiplication: the product wraps around. -/
def mulInt64 (a b : Int) : Int := wrapInt64 (a * b)

/-- Go `int64` division: panics on a zero divisor, truncates toward zero otherwise
(the one overflowing quotient, `MinInt64 / -1`, wraps). -/
def divInt64 (a b : Int) : Outcome Int :=
  if b = 0 then .panicked "runtime error: integer divide by zero"
  else .returned (wrapInt64 (Int.tdiv a b))

/-! ## Data model (`src/main.go`, lines 255-286) -/

/-- The struct `NodeStatsFSTotal`. -/
structure NodeStatsFSTotal where
  Total : Int
  Free : Int
  Available : Int
  deriving DecidableEq, Repr

/-- The struct `NodeStatsFSDataResponse`. -/
structure NodeStatsFSDataResponse where
  Path : String
  Mount : String
  Device : String
  Total : Int
  Free : Int
  Available : Int
  deriving DecidableEq, Repr

/-- The struct `NodeStatsFSResponse`. -/
structure NodeStatsFSResponse where
  Timestamp : Int
  Total : NodeStatsFSTotal
  Data : List NodeStatsFSDataResponse
  deriving DecidableEq, Repr

/-- The struct `NodeStatsNodeResponse`. -/
structure NodeStatsNodeResponse where
  Name : String
  Host : String
  FS : NodeStatsFSResponse
  deriving DecidableEq, Repr

/-- The struct `NodeStatsResponse`: the map `Nodes` as the list of its entries in the order
in which `range stats.Nodes` visits them. -/
structure NodeStatsResponse where
  Nodes : List (String × NodeStatsNodeResponse)
  deriving DecidableEq, Repr

/-- The Go zero value of `NodeStatsFSResponse`, which `json.Unmarshal` leaves in place when
the `fs` section of a node is absent. -/
def NodeStatsFSResponse.zero : NodeStatsFSResponse :=
  { Timestamp := 0, Total := { Total := 0, Free := 0, Available := 0 }, Data := [] }

/-- What `request` followed by `json.Unmarshal` delivers to its caller. -/
inductive Fetched (α : Type) where
  | transportError (e : String)
  | decodeError (e : String)
  | decoded (a : α)
  deriving DecidableEq, Repr

/-! ## `checkFreeSpace` (`src/main.go`, lines 88-122) -/

/-- The loop of `checkFreeSpace` (lines 108-119): `freePercent` is overwritten once per
visited node; a division by zero panics and ends the loop. -/
def freePercentLoop : Int → List (String × NodeStatsNodeResponse) → Outcome Int
  | freePercent, [] => .returned freePercent
  | _, (_, node) :: rest =>
    let fsTotal := node.FS.Total
    match divInt64 (mulInt64 fsTotal.Available 100) fsTotal.Total with
    | .panicked msg => .panicked msg
    | .returned freePercent => freePercentLoop freePercent rest

/-- The function `checkFreeSpace`.  `space` is a Go `int`; the conversion `int64(space)`
preserves its value.  The result is the Go pair `(bool, error)`, the error being `none`
for `nil`. -/
def checkFreeSpace (nodesStats : Fetched NodeStatsResponse) (space : Int) :
    Outcome (Bool × Option String) :=
  match nodesStats with
  | .transportError e => .returned (false, some ("error getting nodes stats, " ++ e))
  | .decodeError _ =>
    .returned (false, some "error unmarshalling NodeStatsResponse to json, <nil>")
  | .decoded stats =>
    match freePercentLoop 0 stats.Nodes with
    | .panicked msg => .panicked msg
    | .returned freePercent => .returned (decide (freePercent > space), none)

/-- What the inner loop of `main` (lines 60-80) does with the result of `checkFreeSpace`. -/
inductive Step where
  | logAndSleep
  | deleteOldIndex
  | waitForTick
  deriving DecidableEq, Repr

/-- The branch taken by the inner loop of `main` on a returned `(ok, err)`. -/
def nextStep : Bool × Option String → Step
  | (_, some _) => .logAndSleep
  | (false, none) => .deleteOldIndex
  | (true, none) => .waitForTick

/-- A node entry whose filesystem totals are the given numbers. -/
def mkNode (name : String) (total available : Int) : String × NodeStatsNodeResponse :=
  (name, { Name := name, Host := "",
           FS := { Timestamp := 0,
                   Total := { Total := total, Free := available, Available := available },
                   Data := [] } })

/-! ## Regular expressions (Go package `regexp`)

Go's `regexp` returns the match that a backtracking search finds first (leftmost-first).
The matcher below is that backtracking search, written in continuation-passing style, for
the constructs that occur in `dailyIndex`.  Positions count characters; every capture is
cut out of the subject by its two positions, as Go does with byte offsets. -/

/-- Regular expressions, restricted to the constructs of `dailyIndex`. -/
inductive Re where
  /-- The assertion written `^`: the beginning of the text. -/
  | beginText
  /-- The assertion written `$` without the flag `m`: the end of the text. -/
  | endText
  /-- Concatenation. -/
  | seq (a b : Re)
  /-- For a character class `c`, the expression `c+?`: one or more, preferring fewer. -/
  | plusLazy (c : Char → Bool)
  /-- For a character class `c`, the expression `c*?`: zero or more, preferring fewer. -/
  | starLazy (c : Char → Bool)
  /-- For a character class `c`, the expression `c{lo,hi}`: preferring more. -/
  | repeatGreedy (c : Char → Bool) (lo hi : Nat)
  /-- A capturing group with its number. -/
  | capture (i : Nat) (r : Re)

/-- The expression `x{3}` for a group `x`: three copies of `x` in a row. -/
def Re.thrice (x : Re) : Re := .seq x (.seq x x)

/-- The positions (start, end) recorded for each capturing group. -/
abbrev Caps := Nat → Option (Nat × Nat)

/-- What remains to be matched: it receives the position, the rest of the subject and the
captures recorded so far. -/
abbrev Cont := Nat → List Char → Caps → Option Caps

/-- The search for `c*?`: first try to go on without consuming, then consume one more
character of the class and try again. -/
def lazyLoop (c : Char → Bool) (k : Cont) (caps : Caps) : Nat → List Char → Option Caps
  | pos, [] => k pos [] caps
  | pos, x :: xs =>
    match k pos (x :: xs) caps with
    | some m => some m
    | none => if c x then lazyLoop c k caps (pos + 1) xs else none

/-- The search for `c{lo,hi}`: first consume one more character of the class (at most `hi`),
and go on from here only when that fails and at least `lo` have been consumed. -/
def greedyLoop (c : Char → Bool) (k : Cont) (caps : Caps) :
    Nat → Nat → Nat → List Char → Option Caps
  | lo, 0, pos, inp => if lo = 0 then k pos inp caps else none
  | lo, _ + 1, pos, [] => if lo = 0 then k pos [] caps else none
  | lo, hi + 1, pos, x :: xs =>
    match (if c x then greedyLoop c k caps (lo - 1) hi (pos + 1) xs else none) with
    | some m => some m
    | none => if lo = 0 then k pos (x :: xs) caps else none

/-- The backtracking matcher: `run r k pos inp caps` matches `r` at position `pos`, where
`inp` is the rest of the subject, and hands over to `k`; the first success is returned. -/
def run : Re → Cont → Nat → List Char → Caps → Option Caps
  | .beginText, k, pos, inp, caps => if pos = 0 then k pos inp caps else none
  | .endText, k, pos, inp, caps => if inp.isEmpty then k pos inp caps else none
  | .seq a b, k, pos, inp, caps =>
    run a (fun pos1 inp1 caps1 => run b k pos1 inp1 caps1) pos inp caps
  | .plusLazy c, k, pos, inp, caps =>
    match inp with
    | [] => none
    | x :: xs => if c x then lazyLoop c k caps (pos + 1) xs else none
  | .starLazy c, k, pos, inp, caps => lazyLoop c k caps pos inp
  | .repeatGreedy c lo hi, k, pos, inp, caps => greedyLoop c k caps lo hi pos inp
  | .capture i r, k, pos, inp, caps =>
    run r (fun pos1 inp1 caps1 => k pos1 inp1 (Function.update caps1 i (some (pos, pos1))))
      pos inp caps

/-- The final continuation: the whole match is group 0. -/
def accept (start : Nat) : Cont :=
  fun pos _ caps => some (Function.update caps 0 (some (start, pos)))

/-- The unanchored search: the leftmost starting position that admits a match. -/
def searchFrom (re : Re) : Nat → List Char → Option Caps
  | pos, [] => run re (accept pos) pos [] (fun _ => none)
  | pos, x :: xs =>
    match run re (accept pos) pos (x :: xs) (fun _ => none) with
    | some m => some m
    | none => searchFrom re (pos + 1) xs

/-- The substring `s[a:b]`. -/
def slice (s : List Char) (a b : Nat) : List Char := (s.drop a).take (b - a)

/-- The method `(*Regexp).FindStringSubmatch`: the empty list (`nil`) when there is no
match, else the text of the whole match followed by the text of each of the `numSubexp`
groups. -/
def FindStringSubmatch (re : Re) (numSubexp : Nat) (s : List Char) : List (List Char) :=
  match searchFrom re 0 s with
  | none => []
  | some caps =>
    (List.range (numSubexp + 1)).map fun i =>
      match caps i with
      | some (a, b) => slice s a b
      | none => []

/-- The class `\d` of Go: the ASCII digits. -/
def isDigit (c : Char) : Bool := decide (48 ≤ c.toNat ∧ c.toNat ≤ 57)

/-- The class `.` of Go without the flag `s`: every character but the line feed. -/
def notNewline (c : Char) : Bool := decide (c.toNat ≠ 10)

/-- The class `\.`: the full stop. -/
def isDot (c : Char) : Bool := decide (c.toNat = 46)

/-- One `\d{2,4}\.*?`, the body of the group that is repeated three times. -/
def dateField : Re := .seq (.repeatGreedy isDigit 2 4) (.starLazy isDot)

/-- The variable `dailyIndex` (line 23): `^(.+?)((?:\d{2,4}\.*?){3})$`. -/
def dailyIndex : Re :=
  .seq .beginText
    (.seq (.capture 1 (.plusLazy notNewline))
      (.seq (.capture 2 (Re.thrice dateField)) .endText))

/-! ## Dates (Go package `time`)

`time.Parse` is embedded for the one layout of the source, `"2006.01.02"`, which Go splits
into the chunks `2006` (`stdLongYear`), `.`, `01` (`stdZeroMonth`), `.`, `02`
(`stdZeroDay`).  The parsed text consists of ASCII characters whenever it comes from group 2
of `dailyIndex`, so characters stand for Go's bytes. -/

/-- A `time.Time` that is a calendar day at midnight UTC, as `time.Parse` builds it with
`Date(year, Month(month), day, 0, 0, 0, 0, UTC)` for a layout without clock or zone. -/
structure Time where
  year : Nat
  month : Nat
  day : Nat
  deriving DecidableEq, Repr

/-- The zero value `time.Time{}`: January 1 of year 1. -/
def Time.zero : Time := { year := 1, month := 1, day := 1 }

/-- Go `isLeap`. -/
def isLeap (year : Nat) : Bool := year % 4 = 0 && (year % 100 ≠ 0 || year % 400 = 0)

/-- Go `daysBefore`: the number of days of a non-leap year before the end of month `m`. -/
def daysBefore : List Nat := [0, 31, 59, 90, 120, 151, 181, 212, 243, 273, 304, 334, 365]

/-- Go `daysIn`. -/
def daysIn (m year : Nat) : Nat :=
  if m = 2 && isLeap year then 29 else daysBefore.getD m 0 - daysBefore.getD (m - 1) 0

/-- The number of days from January 1 of year 1 to the day of `t` (negative in year 0),
as `Date` computes the instant of a normalised calendar day. -/
def Time.days (t : Time) : Int :=
  let y : Int := (t.year : Int) - 1
  365 * y + y / 4 - y / 100 + y / 400 + (daysBefore.getD (t.month - 1) 0 : Nat)
    + (if isLeap t.year && decide (3 ≤ t.month) then 1 else 0) + ((t.day : Int) - 1)

/-- The method `Time.Before`: the instant of `t` is earlier than that of `u`. -/
def Time.Before (t u : Time) : Bool := decide (t.days < u.days)

/-- The numeric value of an ASCII digit. -/
def digitVal (c : Char) : Nat := c.toNat - 48

/-- Go `isDigit(s, i)`: false beyond the end of `s`. -/
def isDigitAt (s : List Char) (i : Nat) : Bool :=
  match s.get? i with
  | some c => isDigit c
  | none => false

/-- Go `leadingInt`: the leading digits of `s` as a number and the rest of `s`; `none` is
the overflow error. -/
def leadingInt : List Char → Nat → Option (Nat × List Char)
  | [], x => some (x, [])
  | c :: cs, x =>
    if isDigit c then
      if x > 2 ^ 63 / 10 then none
      else if x * 10 + digitVal c > 2 ^ 63 then none
      else leadingInt cs (x * 10 + digitVal c)
    else some (x, c :: cs)

/-- Go `atoi` of package `time`: an optional sign and digits up to the end of `s`. -/
def atoi (s : List Char) : Option Int :=
  let neg := decide (s.head? = some '-')
  let s1 := if s.head? = some '-' ∨ s.head? = some '+' then s.tail else s
  match leadingInt s1 0 with
  | none => none
  | some (q, rem) =>
    if rem.length > 0 then none
    else if neg then some (-(q : Int)) else some (q : Int)

/-- Go `getnum(s, fixed)` with `fixed = true`: exactly two digits. -/
def getnumFixed (s : List Char) : Option (Nat × List Char) :=
  if !isDigitAt s 0 then none
  else if !isDigitAt s 1 then none
  else some (digitVal (s.getD 0 '0') * 10 + digitVal (s.getD 1 '0'), s.drop 2)

/-- Go `skip(value, prefix)` for the literal `"."` that separates the chunks. -/
def skipDot : List Char → Option (List Char)
  | [] => none
  | c :: cs => if c = '.' then some cs else none

/-- The call `time.Parse("2006.01.02", value)`. -/
def timeParse (value : List Char) : Except String Time :=
  -- stdLongYear
  if value.length < 4 || !isDigitAt value 0 then .error "cannot parse as \"2006\"" else
  match atoi (value.take 4) with
  | none => .error "cannot parse as \"2006\""
  | some year =>
  -- "." and stdZeroMonth
  match skipDot (value.drop 4) with
  | none => .error "cannot parse as \".\""
  | some value1 =>
  match getnumFixed value1 with
  | none => .error "cannot parse as \"01\""
  | some (month, value2) =>
  if month ≤ 0 || 12 < month then .error "month out of range" else
  -- "." and stdZeroDay
  match skipDot value2 with
  | none => .error "cannot parse as \".\""
  | some value3 =>
  match getnumFixed value3 with
  | none => .error "cannot parse as \"02\""
  | some (day, value4) =>
  -- end of the layout
  if value4.length ≠ 0 then .error "extra text" else
  -- the day of the month is validated last
  if day < 1 || day > daysIn month year.toNat then .error "day out of range" else
  .ok { year := year.toNat, month := month, day := day }

/-- The digit loop of Go `appendInt`: the decimal digits of `u` are written from the end of
a buffer of 20 bytes towards its front; `buf` is the part written so far. -/
def appendDigits : Nat → Nat → List Char → List Char
  | 0, _, buf => buf
  | room + 1, u, buf =>
    if u ≥ 10 then appendDigits room (u / 10) (Char.ofNat (48 + u % 10) :: buf)
    else Char.ofNat (48 + u) :: buf

/-- Go `appendInt(b, x, width)` for a non-negative `x`: the decimal digits of `x`, padded
with zeros on the left to `width` characters. -/
def appendInt (x width : Nat) : List Char :=
  let digits := appendDigits 20 x []
  List.replicate (width - digits.length) '0' ++ digits

/-- The call `t.Format("2006.01.02")`. -/
def Time.Format (t : Time) : List Char :=
  appendInt t.year 4 ++ '.' :: appendInt t.month 2 ++ '.' :: appendInt t.day 2

/-! ## `indexTime` and `Indices` (`src/main.go`, lines 215-253) -/

/-- The function `indexTime`. -/
def indexTime (s : String) : Except String Time :=
  let found := FindStringSubmatch dailyIndex 2 s.toList
  if found.length < 3 then .error "wrong format"
  else
    match timeParse (found.getD 2 []) with
    | .error e => .error ("error parsing date to " ++ s ++ ": " ++ e)
    | .ok date => .ok date

/-- The type `Indices`. -/
abbrev Indices := List String

/-- The body of `Indices.Less` on the two names `is[i]` and `is[j]`. -/
def lessName (a b : String) : Bool :=
  match indexTime a with
  | .error _ => false
  | .ok iTime =>
    match indexTime b with
    | .error _ => true
    | .ok jTime => iTime.Before jTime

/-- The method `Indices.Less`. -/
def Indices.Less (is : Indices) (i j : Nat) : Bool := lessName (is.getD i "") (is.getD j "")

/-- The method `Indices.Len`. -/
def Indices.Len (is : Indices) : Nat := is.length

/-! ## `SkipFlag` (`src/main.go`, lines 193-213) -/

/-- The type `SkipFlag`. -/
abbrev SkipFlag := List String

/-- The method `SkipFlag.Has`. -/
def SkipFlag.Has : SkipFlag → String → Bool
  | [], _ => false
  | skip :: rest, v => if v = skip then true else SkipFlag.Has rest v

/-! ## `sort.Sort` (Go package `sort`)

`sort.Sort` is not stable and its algorithm depends on the length of the slice, so
`deleteOldIndeces` takes the sorting routine as an argument.  `SortsWith` is the contract
of `sort.Sort`; `insertionSort` is the routine that `sort.Sort` runs on slices of at most
12 elements. -/

/-- One pass of the inner loop of Go `insertionSort`: the element `x` moves towards the
front while it is less than its left neighbour.  The sorted part is held back to front. -/
def insertLast {α : Type} (less : α → α → Bool) (x : α) : List α → List α
  | [] => [x]
  | y :: ys => if less x y then y :: insertLast less x ys else x :: y :: ys

/-- Go `insertionSort(data, 0, n)`. -/
def insertionSort {α : Type} (less : α → α → Bool) (data : List α) : List α :=
  (data.foldl (fun sortedRev x => insertLast less x sortedRev) []).reverse

/-- The contract of `sort.Sort`: the slice is rearranged, and afterwards no element is less
than an element that precedes it. -/
def SortsWith (less : String → String → Bool) (sortFn : Indices → Indices) : Prop :=
  ∀ is, (sortFn is).Perm is ∧ (sortFn is).Pairwise (fun a b => less b a = false)

/-! ## `deleteOldIndeces` (`src/main.go`, lines 124-166) -/

/-- The HTTP methods the program uses. -/
inductive Method where
  | GET
  | DELETE
  deriving DecidableEq, Repr

/-- A call of `request`. -/
structure Request where
  method : Method
  url : String
  deriving DecidableEq, Repr

/-- The request for the alias listing (line 128). -/
def aliasesRequest (server : String) : Request :=
  { method := .GET, url := server ++ "/_aliases" }

/-- The request that deletes `index` (line 158). -/
def deleteRequest (server index : String) : Request :=
  { method := .DELETE, url := server ++ "/" ++ index }

/-- What a call of `deleteOldIndeces` did: the requests it issued, in order, and the error
it returned (`none` for `nil`). -/
structure Report where
  requests : List Request
  err : Option String
  deriving DecidableEq, Repr

/-- The loop of lines 142-146: the names of the listing that are not skipped, in the order
in which the listing is visited. -/
def eligible (aliases : List String) (skip : SkipFlag) : Indices :=
  aliases.filter fun index => !skip.Has index

/-- The function `deleteOldIndeces`.  `aliases` is the outcome of the request for the alias
listing (the keys of the decoded map, in the order of the `range` loop), `deleteError` the
error, if any, that the DELETE request for an index ends with. -/
def deleteOldIndeces (sortFn : Indices → Indices) (server : String) (skip : SkipFlag)
    (aliases : Fetched (List String)) (deleteError : String → Option String) :
    Outcome Report :=
  match aliases with
  | .transportError e =>
    .returned { requests := [aliasesRequest server],
                err := some ("error getting nodes stats, " ++ e) }
  | .decodeError _ =>
    .returned { requests := [aliasesRequest server],
                err := some "error unmarshalling AliasesResponse to json, <nil>" }
  | .decoded keys =>
    let indices := eligible keys skip
    if indices.length = 0 then
      .returned { requests := [aliasesRequest server], err := some "no indices to remove" }
    else
      match sortFn indices with
      | [] => .panicked "runtime error: index out of range [0] with length 0"
      | index :: _ =>
        match deleteError index with
        | some e =>
          .returned { requests := [aliasesRequest server, deleteRequest server index],
                      err := some ("error deleting index " ++ index ++ ", " ++ e) }
        | none =>
          .returned { requests := [aliasesRequest server, deleteRequest server index],
                      err := none }

/-! ## Vocabulary of the statements -/

deriving instance DecidableEq for Except

/-- A text matched by one `\d{2,4}\.*?`: two to four digits, then full stops. -/
def IsField (w : List Char) : Prop :=
  ∃ ds dots, w = ds ++ dots ∧ (∀ x ∈ ds, isDigit x = true) ∧ 2 ≤ ds.length ∧ ds.length ≤ 4 ∧
    ∀ x ∈ dots, isDot x = true

/-- A text matched by `(?:\d{2,4}\.*?){3}`. -/
def IsTail (t : List Char) : Prop :=
  ∃ w1 w2 w3, t = w1 ++ (w2 ++ w3) ∧ IsField w1 ∧ IsField w2 ∧ IsField w3

/-- The captures of a match of `dailyIndex` that starts at `st`, group 1 being `g1` and
group 2 being `g2`. -/
def capsOf (st : Nat) (g1 g2 : List Char) : Caps :=
  Function.update
    (Function.update (Function.update (fun _ => none) 1 (some (0, g1.length))) 2
      (some (g1.length, g1.length + g2.length)))
    0 (some (st, g1.length + g2.length))

/-- The text `YYYY.MM.DD` made of the given eight characters. -/
def dateText (y1 y2 y3 y4 m1 m2 d1 d2 : Char) : List Char :=
  [y1, y2, y3, y4, '.', m1, m2, '.', d1, d2]

/-- The number written by four digits. -/
def num4 (a b c d : Char) : Nat :=
  ((digitVal a * 10 + digitVal b) * 10 + digitVal c) * 10 + digitVal d

/-- The number written by two digits. -/
def num2 (a b : Char) : Nat := digitVal a * 10 + digitVal b

/-- A calendar day that exists: what `time.Parse` accepts. -/
def Time.Valid (t : Time) : Prop :=
  1 ≤ t.month ∧ t.month ≤ 12 ∧ 1 ≤ t.day ∧ t.day ≤ daysIn t.month t.year

/-- The days from January 1 of year 1 to January 1 of `year`. -/
def yearStart (year : Nat) : Int :=
  let y : Int := (year : Int) - 1
  365 * y + y / 4 - y / 100 + y / 400

/-- The days from January 1 to the first day of month `m`. -/
def monthStart (leap : Bool) (m : Nat) : Nat :=
  daysBefore.getD (m - 1) 0 + if leap && decide (3 ≤ m) then 1 else 0

/-! ## Helper lemmas -/

theorem wrapInt64_of_range {x : Int} (h0 : -(2 ^ 63) ≤ x) (h1 : x < 2 ^ 63) : wrapInt64 x = x := by
  unfold wrapInt64
  omega

theorem freePercentLoop_append (earlier : List (String × NodeStatsNodeResponse))
    (last : String × NodeStatsNodeResponse) (acc : Int)
    (h : ∀ n ∈ earlier ++ [last], n.2.FS.Total.Total ≠ 0) :
    freePercentLoop acc (earlier ++ [last]) =
      .returned (wrapInt64 (Int.tdiv (mulInt64 last.2.FS.Total.Available 100)
        last.2.FS.Total.Total)) := by
  induction earlier generalizing acc with
  | nil =>
    have h1 : last.2.FS.Total.Total ≠ 0 := h last (by simp)
    simp [freePercentLoop, divInt64, h1]
  | cons n rest ih =>
    have h1 : n.2.FS.Total.Total ≠ 0 := h n (by simp)
    have h2 : ∀ m ∈ rest ++ [last], m.2.FS.Total.Total ≠ 0 := fun m hm => h m (by simp at hm ⊢; tauto)
    obtain ⟨name, node⟩ := n
    simp only [List.cons_append, freePercentLoop, divInt64]
    simp only at h1
    simp only [h1, if_false]
    exact ih _ h2

theorem checkFreeSpace_last (earlier : List (String × NodeStatsNodeResponse))
    (last : String × NodeStatsNodeResponse) (space : Int)
    (h : ∀ n ∈ earlier ++ [last],
      0 < n.2.FS.Total.Total ∧ 0 ≤ n.2.FS.Total.Available ∧
      n.2.FS.Total.Available ≤ n.2.FS.Total.Total ∧ n.2.FS.Total.Available * 100 < 2 ^ 63) :
    checkFreeSpace (.decoded { Nodes := earlier ++ [last] }) space =
      .returned (decide (last.2.FS.Total.Available * 100 / last.2.FS.Total.Total > space), none) := by
  have hne : ∀ n ∈ earlier ++ [last], n.2.FS.Total.Total ≠ 0 := fun n hn => by
    have := (h n hn).1; omega
  obtain ⟨ht, ha0, hat, ha⟩ := h last (by simp)
  have hmul : mulInt64 last.2.FS.Total.Available 100 = last.2.FS.Total.Available * 100 := by
    unfold mulInt64; apply wrapInt64_of_range <;> omega
  have hdiv : Int.tdiv (last.2.FS.Total.Available * 100) last.2.FS.Total.Total
      = last.2.FS.Total.Available * 100 / last.2.FS.Total.Total :=
    Int.tdiv_eq_ediv (by omega) (by omega)
  have hq0 : 0 ≤ last.2.FS.Total.Available * 100 / last.2.FS.Total.Total :=
    Int.ediv_nonneg (by omega) (by omega)
  have hq1 : last.2.FS.Total.Available * 100 / last.2.FS.Total.Total ≤ last.2.FS.Total.Available * 100 :=
    Int.ediv_le_self _ (by omega)
  simp only [checkFreeSpace, freePercentLoop_append earlier last 0 hne, hmul, hdiv]
  rw [wrapInt64_of_range (by omega) (by omega)]

/-! Helper lemmas: `lessName` -/

theorem lessName_of_error {a : String} {e : String} (h : indexTime a = .error e) (b : String) :
    lessName a b = false := by
  simp [lessName, h]

theorem lessName_ok_error {a b : String} {d : Time} {e : String} (ha : indexTime a = .ok d)
    (hb : indexTime b = .error e) : lessName a b = true := by
  simp [lessName, ha, hb]

theorem lessName_ok_ok {a b : String} {da db : Time} (ha : indexTime a = .ok da)
    (hb : indexTime b = .ok db) : lessName a b = da.Before db := by
  simp [lessName, ha, hb]

theorem Before_irrefl (d : Time) : d.Before d = false := by
  simp [Time.Before]

theorem Before_trans {a b c : Time} (h1 : a.Before b = true) (h2 : b.Before c = true) :
    a.Before c = true := by
  simp only [Time.Before, decide_eq_true_eq] at *
  omega

theorem Before_negTrans {a b c : Time} (h1 : a.Before b = false) (h2 : b.Before c = false) :
    a.Before c = false := by
  simp only [Time.Before, decide_eq_false_iff_not] at *
  omega

theorem Before_asymm {a b : Time} (h1 : a.Before b = true) : b.Before a = false := by
  simp only [Time.Before, decide_eq_true_eq, decide_eq_false_iff_not] at *
  omega

theorem lessName_iff (a b : String) :
    lessName a b = true ↔
      ∃ da, indexTime a = .ok da ∧
        ((∃ e, indexTime b = .error e) ∨ ∃ db, indexTime b = .ok db ∧ da.Before db = true) := by
  cases ha : indexTime a with
  | error e => simp [lessName, ha]
  | ok da =>
    cases hb : indexTime b with
    | error e => simp [lessName, ha, hb]
    | ok db => simp [lessName, ha, hb]

theorem lessName_irrefl (a : String) : lessName a a = false := by
  cases ha : indexTime a with
  | error e => exact lessName_of_error ha a
  | ok da => rw [lessName_ok_ok ha ha]; exact Before_irrefl da

theorem lessName_asymm {a b : String} (h : lessName a b = true) : lessName b a = false := by
  cases ha : indexTime a with
  | error e => rw [lessName_of_error ha b] at h; cases h
  | ok da =>
    cases hb : indexTime b with
    | error e => exact lessName_of_error hb a
    | ok db =>
      rw [lessName_ok_ok ha hb] at h
      rw [lessName_ok_ok hb ha]; exact Before_asymm h

theorem lessName_trans {a b c : String} (h1 : lessName a b = true) (h2 : lessName b c = true) :
    lessName a c = true := by
  cases ha : indexTime a with
  | error e => rw [lessName_of_error ha b] at h1; cases h1
  | ok da =>
    cases hb : indexTime b with
    | error e => rw [lessName_of_error hb c] at h2; cases h2
    | ok db =>
      cases hc : indexTime c with
      | error e => exact lessName_ok_error ha hc
      | ok dc =>
        rw [lessName_ok_ok ha hb] at h1
        rw [lessName_ok_ok hb hc] at h2
        rw [lessName_ok_ok ha hc]; exact Before_trans h1 h2

theorem lessName_negTrans {a b c : String} (h1 : lessName a b = false)
    (h2 : lessName b c = false) : lessName a c = false := by
  cases ha : indexTime a with
  | error e => exact lessName_of_error ha c
  | ok da =>
    cases hb : indexTime b with
    | error e => rw [lessName_ok_error ha hb] at h1; cases h1
    | ok db =>
      cases hc : indexTime c with
      | error e => rw [lessName_ok_error hb hc] at h2; cases h2
      | ok dc =>
        rw [lessName_ok_ok ha hb] at h1
        rw [lessName_ok_ok hb hc] at h2
        rw [lessName_ok_ok ha hc]; exact Before_negTrans h1 h2

/-! Helper lemmas: insertion sort -/

section Sorting
variable {α : Type} (less : α → α → Bool)

theorem insertLast_perm (x : α) (l : List α) : (insertLast less x l).Perm (x :: l) := by
  induction l with
  | nil => simp [insertLast]
  | cons y ys ih =>
    simp only [insertLast]
    split
    · exact (List.Perm.cons y ih).trans (List.Perm.swap x y ys)
    · exact List.Perm.refl _

theorem insertLast_pairwise
    (hasymm : ∀ a b, less a b = true → less b a = false)
    (hneg : ∀ a b c, less a b = false → less b c = false → less a c = false)
    (x : α) (l : List α) (hl : l.Pairwise (fun a b => less a b = false)) :
    (insertLast less x l).Pairwise (fun a b => less a b = false) := by
  induction l with
  | nil => simp [insertLast]
  | cons y ys ih =>
    rw [List.pairwise_cons] at hl
    simp only [insertLast]
    split
    · rename_i hxy
      rw [List.pairwise_cons]
      refine ⟨fun z hz => ?_, ih hl.2⟩
      rcases List.mem_cons.1 ((List.Perm.mem_iff (insertLast_perm less x ys)).1 hz) with rfl | hz1
      · exact hasymm _ _ hxy
      · exact hl.1 z hz1
    · rename_i hxy
      have hxy1 : less x y = false := by simpa using hxy
      rw [List.pairwise_cons]
      refine ⟨fun z hz => ?_, List.pairwise_cons.2 hl⟩
      rcases List.mem_cons.1 hz with rfl | hz1
      · exact hxy1
      · exact hneg _ _ _ hxy1 (hl.1 z hz1)

theorem foldl_insertLast_perm (data acc : List α) :
    (data.foldl (fun sortedRev x => insertLast less x sortedRev) acc).Perm (data.reverse ++ acc) := by
  induction data generalizing acc with
  | nil => simp
  | cons x xs ih =>
    simp only [List.foldl_cons, List.reverse_cons, List.append_assoc, List.singleton_append]
    exact (ih _).trans (List.Perm.append_left _ (insertLast_perm less x acc))

theorem foldl_insertLast_pairwise
    (hasymm : ∀ a b, less a b = true → less b a = false)
    (hneg : ∀ a b c, less a b = false → less b c = false → less a c = false)
    (data acc : List α) (hacc : acc.Pairwise (fun a b => less a b = false)) :
    (data.foldl (fun sortedRev x => insertLast less x sortedRev) acc).Pairwise
      (fun a b => less a b = false) := by
  induction data generalizing acc with
  | nil => simpa using hacc
  | cons x xs ih =>
    simp only [List.foldl_cons]
    exact ih _ (insertLast_pairwise less hasymm hneg x acc hacc)

theorem insertionSort_perm (data : List α) : (insertionSort less data).Perm data := by
  unfold insertionSort
  refine (List.reverse_perm _).trans ?_
  refine (foldl_insertLast_perm less data []).trans ?_
  rw [List.append_nil]
  exact List.reverse_perm data

theorem insertionSort_pairwise
    (hasymm : ∀ a b, less a b = true → less b a = false)
    (hneg : ∀ a b c, less a b = false → less b c = false → less a c = false)
    (data : List α) : (insertionSort less data).Pairwise (fun a b => less b a = false) := by
  unfold insertionSort
  rw [List.pairwise_reverse]
  exact foldl_insertLast_pairwise less hasymm hneg data [] List.Pairwise.nil

end Sorting

theorem insertionSort_sortsWith : SortsWith lessName (insertionSort lessName) := fun is =>
  ⟨insertionSort_perm lessName is,
   insertionSort_pairwise lessName (fun _ _ h => lessName_asymm h)
     (fun _ _ _ h1 h2 => lessName_negTrans h1 h2) is⟩

/-! Helper lemmas: skip list and eligible names -/

theorem SkipFlag.Has_iff (sf : SkipFlag) (v : String) : SkipFlag.Has sf v = true ↔ v ∈ sf := by
  induction sf with
  | nil => simp [SkipFlag.Has]
  | cons s rest ih =>
    simp only [SkipFlag.Has, List.mem_cons]
    by_cases h : v = s
    · simp [h]
    · simp [h, ih]

theorem mem_eligible (aliases : List String) (skip : SkipFlag) (x : String) :
    x ∈ eligible aliases skip ↔ x ∈ aliases ∧ x ∉ skip := by
  simp [eligible, List.mem_filter, ← SkipFlag.Has_iff]

/-- The first element of a sorted rearrangement of the eligible names. -/
theorem sorted_head (sortFn : Indices → Indices) (hsort : SortsWith lessName sortFn)
    (is : Indices) (hne : is ≠ []) :
    ∃ index rest, sortFn is = index :: rest ∧ index ∈ is ∧
      ∀ y ∈ is, lessName y index = false := by
  obtain ⟨hperm, hpw⟩ := hsort is
  cases hs : sortFn is with
  | nil =>
    rw [hs] at hperm
    exact absurd (List.Perm.eq_nil (List.Perm.symm hperm)) hne
  | cons index rest =>
    rw [hs] at hperm hpw
    refine ⟨index, rest, rfl, (List.Perm.mem_iff hperm).1 (List.mem_cons_self _ _), ?_⟩
    intro y hy
    rcases List.mem_cons.1 ((List.Perm.mem_iff hperm).2 hy) with rfl | hy1
    · exact lessName_irrefl _
    · exact (List.pairwise_cons.1 hpw).1 y hy1

/-! Helper lemmas: the matcher -/

theorem lazyLoop_some {c : Char → Bool} {k : Cont} {caps : Caps} :
    ∀ (inp : List Char) (pos : Nat) {m : Caps}, lazyLoop c k caps pos inp = some m →
      ∃ w rest, inp = w ++ rest ∧ (∀ x ∈ w, c x = true) ∧
        k (pos + w.length) rest caps = some m := by
  intro inp
  induction inp with
  | nil =>
    intro pos m h
    exact ⟨[], [], rfl, by simp, by simpa [lazyLoop] using h⟩
  | cons x xs ih =>
    intro pos m h
    simp only [lazyLoop] at h
    cases hk : k pos (x :: xs) caps with
    | some m1 =>
      rw [hk] at h
      exact ⟨[], x :: xs, rfl, by simp, by simpa [hk] using h⟩
    | none =>
      rw [hk] at h
      by_cases hc : c x = true
      · simp only [hc, if_true] at h
        obtain ⟨w, rest, hw, hall, hk1⟩ := ih (pos + 1) h
        refine ⟨x :: w, rest, by simp [hw], ?_, ?_⟩
        · intro y hy
          rcases List.mem_cons.1 hy with rfl | hy1
          · exact hc
          · exact hall y hy1
        · rw [← hk1]; congr 1; simp; omega
      · simp [hc] at h

theorem greedyLoop_some {c : Char → Bool} {k : Cont} {caps : Caps} :
    ∀ (hi lo pos : Nat) (inp : List Char) {m : Caps},
      greedyLoop c k caps lo hi pos inp = some m →
      ∃ w rest, inp = w ++ rest ∧ (∀ x ∈ w, c x = true) ∧ lo ≤ w.length ∧ w.length ≤ hi ∧
        k (pos + w.length) rest caps = some m := by
  intro hi
  induction hi with
  | zero =>
    intro lo pos inp m h
    simp only [greedyLoop] at h
    by_cases hlo : lo = 0
    · simp only [hlo, if_true] at h
      exact ⟨[], inp, rfl, by simp, by simp [hlo], by simp, by simpa using h⟩
    · simp [hlo] at h
  | succ hi ih =>
    intro lo pos inp m h
    cases inp with
    | nil =>
      simp only [greedyLoop] at h
      by_cases hlo : lo = 0
      · simp only [hlo, if_true] at h
        exact ⟨[], [], rfl, by simp, by simp [hlo], by simp, by simpa using h⟩
      · simp [hlo] at h
    | cons x xs =>
      simp only [greedyLoop] at h
      cases hg : (if c x = true then greedyLoop c k caps (lo - 1) hi (pos + 1) xs else none) with
      | some m1 =>
        rw [hg] at h
        have hm : m1 = m := by simpa using h
        subst hm
        by_cases hc : c x = true
        · simp only [hc, if_true] at hg
          obtain ⟨w, rest, hw, hall, hlo, hhi, hk1⟩ := ih (lo - 1) (pos + 1) xs hg
          refine ⟨x :: w, rest, by simp [hw], ?_, by simp; omega, by simp; omega, ?_⟩
          · intro y hy
            rcases List.mem_cons.1 hy with rfl | hy1
            · exact hc
            · exact hall y hy1
          · rw [← hk1]; congr 1; simp; omega
        · simp [hc] at hg
      | none =>
        rw [hg] at h
        by_cases hlo : lo = 0
        · simp only [hlo, if_true] at h
          exact ⟨[], x :: xs, rfl, by simp, by simp [hlo], by simp, by simpa using h⟩
        · simp [hlo] at h

theorem run_dateField_some {k : Cont} {pos : Nat} {inp : List Char} {caps m : Caps}
    (h : run dateField k pos inp caps = some m) :
    ∃ w rest, inp = w ++ rest ∧ IsField w ∧ k (pos + w.length) rest caps = some m := by
  simp only [dateField, run] at h
  obtain ⟨ds, rest1, h1, hds, hlo, hhi, hk⟩ := greedyLoop_some 4 2 pos inp h
  obtain ⟨dots, rest, h2, hdots, hk2⟩ := lazyLoop_some rest1 (pos + ds.length) hk
  refine ⟨ds ++ dots, rest, by simp [h1, h2], ⟨ds, dots, rfl, hds, hlo, hhi, hdots⟩, ?_⟩
  rw [← hk2]; congr 1; simp; omega

theorem run_tail_some {st pos : Nat} {inp : List Char} {caps m : Caps}
    (h : run (.seq (.capture 2 (Re.thrice dateField)) .endText) (accept st) pos inp caps
      = some m) :
    IsTail inp ∧
      m = Function.update (Function.update caps 2 (some (pos, pos + inp.length))) 0
        (some (st, pos + inp.length)) := by
  simp only [run, Re.thrice] at h
  obtain ⟨w1, r1, e1, f1, h1⟩ := run_dateField_some h
  obtain ⟨w2, r2, e2, f2, h2⟩ := run_dateField_some h1
  obtain ⟨w3, r3, e3, f3, h3⟩ := run_dateField_some h2
  by_cases hr : r3 = []
  · subst hr
    simp only [List.isEmpty_nil, if_true, accept] at h3
    have hlen : pos + w1.length + w2.length + w3.length = pos + inp.length := by
      simp [e1, e2, e3]; omega
    rw [hlen] at h3
    refine ⟨⟨w1, w2, w3, by simp [e1, e2, e3], f1, f2, f3⟩, ?_⟩
    simpa using h3.symm
  · cases r3 with
    | nil => exact absurd rfl hr
    | cons a b => simp at h3

theorem run_plusLazy_some {c : Char → Bool} {k : Cont} {pos : Nat} {inp : List Char}
    {caps m : Caps} (h : run (.plusLazy c) k pos inp caps = some m) :
    ∃ w rest, inp = w ++ rest ∧ w ≠ [] ∧ (∀ x ∈ w, c x = true) ∧
      k (pos + w.length) rest caps = some m := by
  cases inp with
  | nil => simp [run] at h
  | cons x xs =>
    simp only [run] at h
    by_cases hx : c x = true
    · simp only [hx, if_true] at h
      obtain ⟨w, rest, hw, hall, hk⟩ := lazyLoop_some xs (pos + 1) h
      refine ⟨x :: w, rest, by simp [hw], by simp, ?_, ?_⟩
      · intro y hy
        rcases List.mem_cons.1 hy with rfl | hy1
        · exact hx
        · exact hall y hy1
      · rw [← hk]; congr 1; simp; omega
    · simp [hx] at h

theorem run_dailyIndex_some {st pos : Nat} {s : List Char} {m : Caps}
    (h : run dailyIndex (accept st) pos s (fun _ => none) = some m) :
    pos = 0 ∧ ∃ g1 g2, s = g1 ++ g2 ∧ g1 ≠ [] ∧ (∀ x ∈ g1, notNewline x = true) ∧
      IsTail g2 ∧ m = capsOf st g1 g2 := by
  unfold dailyIndex at h
  rw [run, run, run, run] at h
  by_cases hpos : pos = 0
  · subst hpos
    refine ⟨rfl, ?_⟩
    rw [if_pos rfl] at h
    obtain ⟨w, rest, hw, hne, hall, hk⟩ := run_plusLazy_some h
    obtain ⟨ht, hm⟩ := run_tail_some hk
    refine ⟨w, rest, hw, hne, hall, ht, ?_⟩
    rw [hm]; unfold capsOf
    rw [Nat.zero_add]
  · rw [if_neg hpos] at h
    cases h

theorem searchFrom_dailyIndex_some :
    ∀ (s : List Char) (pos : Nat) {m : Caps}, searchFrom dailyIndex pos s = some m →
      run dailyIndex (accept pos) pos s (fun _ => none) = some m := by
  intro s
  induction s with
  | nil => intro pos m h; simpa [searchFrom] using h
  | cons x xs ih =>
    intro pos m h
    simp only [searchFrom] at h
    cases hr : run dailyIndex (accept pos) pos (x :: xs) (fun _ => none) with
    | some m1 => rw [hr] at h; simpa using h
    | none =>
      rw [hr] at h
      have h1 := ih (pos + 1) h
      have := (run_dailyIndex_some h1).1
      omega

theorem slice_left (a b : List Char) : slice (a ++ b) 0 a.length = a := by
  simp [slice]

theorem slice_right (a b : List Char) : slice (a ++ b) a.length (a.length + b.length) = b := by
  simp [slice]

theorem slice_all (a : List Char) : slice a 0 a.length = a := by
  simp [slice]

theorem find_of_caps {s g1 g2 : List Char} (hs : s = g1 ++ g2)
    (h : searchFrom dailyIndex 0 s = some (capsOf 0 g1 g2)) :
    FindStringSubmatch dailyIndex 2 s = [s, g1, g2] := by
  subst hs
  unfold FindStringSubmatch
  rw [h]
  have hr : List.range (2 + 1) = [0, 1, 2] := by decide
  rw [hr]
  have h0 : capsOf 0 g1 g2 0 = some (0, g1.length + g2.length) := by simp [capsOf]
  have h1 : capsOf 0 g1 g2 1 = some (0, g1.length) := by simp [capsOf]
  have h2 : capsOf 0 g1 g2 2 = some (g1.length, g1.length + g2.length) := by simp [capsOf]
  simp only [List.map_cons, List.map_nil, h0, h1, h2, slice_left, slice_right]
  have := slice_all (g1 ++ g2)
  rw [List.length_append] at this
  rw [this]

/-- The two possible results of `FindStringSubmatch` for `dailyIndex`. -/
theorem find_cases (s : List Char) :
    FindStringSubmatch dailyIndex 2 s = [] ∨
      ∃ g1 g2, FindStringSubmatch dailyIndex 2 s = [s, g1, g2] ∧ s = g1 ++ g2 ∧ g1 ≠ [] ∧
        (∀ x ∈ g1, notNewline x = true) ∧ IsTail g2 := by
  cases hsearch : searchFrom dailyIndex 0 s with
  | none => left; simp [FindStringSubmatch, hsearch]
  | some m =>
    right
    obtain ⟨_, g1, g2, hs, hne, hnl, ht, hm⟩ :=
      run_dailyIndex_some (searchFrom_dailyIndex_some s 0 hsearch)
    rw [hm] at hsearch
    exact ⟨g1, g2, find_of_caps hs hsearch, hs, hne, hnl, ht⟩

theorem isDigit_not_dot {c : Char} (h : isDigit c = true) : isDot c = false := by
  simp only [isDigit, isDot, decide_eq_true_eq, decide_eq_false_iff_not] at *
  omega

theorem isDot_not_digit {c : Char} (h : isDot c = true) : isDigit c = false := by
  simp only [isDigit, isDot, decide_eq_true_eq, decide_eq_false_iff_not] at *
  omega

theorem isDigit_dot : isDigit '.' = false := by decide

theorem isDot_dot : isDot '.' = true := by decide

theorem run_tail_dateText {y1 y2 y3 y4 m1 m2 d1 d2 : Char}
    (hy1 : isDigit y1 = true) (hy2 : isDigit y2 = true) (hy3 : isDigit y3 = true)
    (hy4 : isDigit y4 = true) (hm1 : isDigit m1 = true) (hm2 : isDigit m2 = true)
    (hd1 : isDigit d1 = true) (hd2 : isDigit d2 = true) (st pos : Nat) (caps : Caps) :
    run (.seq (.capture 2 (Re.thrice dateField)) .endText) (accept st) pos
        (dateText y1 y2 y3 y4 m1 m2 d1 d2) caps
      = some (Function.update (Function.update caps 2 (some (pos, pos + 10))) 0
          (some (st, pos + 10))) := by
  simp [run, Re.thrice, dateField, dateText, greedyLoop, lazyLoop, accept, hy1, hy2, hy3, hy4,
    hm1, hm2, hd1, hd2, isDigit_dot, isDot_dot, isDigit_not_dot, Nat.add_assoc]

theorem dots_front_nil {A W R : List Char} {c : Char} (hA : ∀ x ∈ A, isDot x = true)
    (hc : isDigit c = true) (h : A ++ W = c :: R) : A = [] ∧ W = c :: R := by
  cases A with
  | nil => exact ⟨rfl, by simpa using h⟩
  | cons a A1 =>
    simp only [List.cons_append, List.cons.injEq] at h
    have := hA a (by simp)
    rw [h.1, isDigit_not_dot hc] at this
    cases this

theorem dots_front_one {A B W R : List Char} {c : Char} (hA : ∀ x ∈ A, isDot x = true)
    (hB : ∀ x ∈ B, isDigit x = true) (hBne : 2 ≤ B.length) (hc : isDigit c = true)
    (h : A ++ (B ++ W) = '.' :: c :: R) : B ++ W = c :: R := by
  cases A with
  | nil =>
    cases B with
    | nil => simp at hBne
    | cons b B1 =>
      simp only [List.nil_append, List.cons_append, List.cons.injEq] at h
      have := hB b (by simp)
      rw [h.1, isDigit_dot] at this
      cases this
  | cons a A1 =>
    simp only [List.cons_append, List.cons.injEq] at h
    have hA1 : ∀ x ∈ A1, isDot x = true := fun x hx => hA x (by simp [hx])
    have := dots_front_nil hA1 hc h.2
    exact this.2

theorem digits_front_two {B W R : List Char} {a b : Char} (hB : ∀ x ∈ B, isDigit x = true)
    (hlen : 2 ≤ B.length) (h : B ++ W = a :: b :: '.' :: R) : W = '.' :: R := by
  match B, hB, hlen, h with
  | [], _, hlen, _ => simp at hlen
  | [_], _, hlen, _ => simp at hlen
  | [_, _], _, _, h =>
    simp only [List.cons_append, List.nil_append, List.cons.injEq] at h
    exact h.2.2
  | _ :: _ :: q :: B1, hB, _, h =>
    simp only [List.cons_append, List.cons.injEq] at h
    have := hB q (by simp)
    rw [h.2.2.1, isDigit_dot] at this
    cases this

theorem not_isTail_append_dateText {y1 y2 y3 y4 m1 m2 d1 d2 : Char}
    (hy4 : isDigit y4 = true) (hm2 : isDigit m2 = true) (hd2 : isDigit d2 = true)
    {X : List Char} (hX : X ≠ []) :
    ¬ IsTail (X ++ dateText y1 y2 y3 y4 m1 m2 d1 d2) := by
  rintro ⟨w1, w2, w3, ht, ⟨ds1, dots1, rfl, hds1, hlo1, hhi1, hdots1⟩,
    ⟨ds2, dots2, rfl, hds2, hlo2, _, hdots2⟩, ⟨ds3, dots3, rfl, hds3, hlo3, _, hdots3⟩⟩
  have hrev := congrArg List.reverse ht
  simp only [dateText, List.reverse_append, List.reverse_cons, List.reverse_nil,
    List.nil_append, List.cons_append, List.append_assoc] at hrev
  have r1 : ∀ x ∈ ds1.reverse, isDigit x = true := fun x hx => hds1 x (List.mem_reverse.1 hx)
  have r2 : ∀ x ∈ ds2.reverse, isDigit x = true := fun x hx => hds2 x (List.mem_reverse.1 hx)
  have r3 : ∀ x ∈ ds3.reverse, isDigit x = true := fun x hx => hds3 x (List.mem_reverse.1 hx)
  have q1 : ∀ x ∈ dots1.reverse, isDot x = true := fun x hx => hdots1 x (List.mem_reverse.1 hx)
  have q2 : ∀ x ∈ dots2.reverse, isDot x = true := fun x hx => hdots2 x (List.mem_reverse.1 hx)
  have q3 : ∀ x ∈ dots3.reverse, isDot x = true := fun x hx => hdots3 x (List.mem_reverse.1 hx)
  have s3 := (dots_front_nil q3 hd2 hrev.symm).2
  have s3b := digits_front_two r3 (by simpa using hlo3) s3
  have s2 := dots_front_one q2 r2 (by simpa using hlo2) hm2 s3b
  have s2b := digits_front_two r2 (by simpa using hlo2) s2
  have s2c : dots1.reverse ++ (ds1.reverse ++ []) = '.' :: y4 :: y3 :: y2 :: y1 :: X.reverse := by
    simpa using s2b
  have s1 := dots_front_one q1 r1 (by simpa using hlo1) hy4 s2c
  have hlen := congrArg List.length s1
  simp only [List.length_reverse, List.length_cons, List.length_append, List.length_nil] at hlen
  have : X.length = 0 := by omega
  exact hX (List.length_eq_zero.1 this)

theorem lazyLoop_skip {c : Char → Bool} {k : Cont} {caps : Caps} (D : List Char)
    (hk : ∀ p Y, Y ≠ [] → k p (Y ++ D) caps = none) :
    ∀ (X : List Char) (pos : Nat), (∀ x ∈ X, c x = true) →
      lazyLoop c k caps pos (X ++ D) = lazyLoop c k caps (pos + X.length) D := by
  intro X
  induction X with
  | nil => intro pos _; simp
  | cons x X1 ih =>
    intro pos hX
    have h1 : k pos (x :: (X1 ++ D)) caps = none := hk pos (x :: X1) (by simp)
    have h2 : c x = true := hX x (by simp)
    rw [List.cons_append, lazyLoop, h1]
    simp only [h2, if_true]
    rw [ih (pos + 1) (fun y hy => hX y (by simp [hy]))]
    congr 1
    simp; omega

theorem lazyLoop_of_some {c : Char → Bool} {k : Cont} {caps m : Caps} {pos : Nat}
    {inp : List Char} (h : k pos inp caps = some m) : lazyLoop c k caps pos inp = some m := by
  cases inp with
  | nil => simpa [lazyLoop] using h
  | cons x xs => simp [lazyLoop, h]

theorem run_plusLazy_cons (c : Char → Bool) (k : Cont) (pos : Nat) (x : Char)
    (xs : List Char) (caps : Caps) :
    run (.plusLazy c) k pos (x :: xs) caps =
      if c x then lazyLoop c k caps (pos + 1) xs else none := by
  simp [run]

theorem run_dailyIndex_dateText {y1 y2 y3 y4 m1 m2 d1 d2 : Char}
    (hy1 : isDigit y1 = true) (hy2 : isDigit y2 = true) (hy3 : isDigit y3 = true)
    (hy4 : isDigit y4 = true) (hm1 : isDigit m1 = true) (hm2 : isDigit m2 = true)
    (hd1 : isDigit d1 = true) (hd2 : isDigit d2 = true) {P : List Char} (hP : P ≠ [])
    (hnl : ∀ x ∈ P, notNewline x = true) :
    run dailyIndex (accept 0) 0 (P ++ dateText y1 y2 y3 y4 m1 m2 d1 d2) (fun _ => none)
      = some (capsOf 0 P (dateText y1 y2 y3 y4 m1 m2 d1 d2)) := by
  cases P with
  | nil => exact absurd rfl hP
  | cons x X =>
    unfold dailyIndex
    rw [run, run, run, run, if_pos rfl, List.cons_append, run_plusLazy_cons,
      if_pos (hnl x (by simp))]
    rw [lazyLoop_skip (dateText y1 y2 y3 y4 m1 m2 d1 d2) ?_ X (0 + 1)
      (fun y hy => hnl y (by simp [hy]))]
    · apply lazyLoop_of_some
      rw [run_tail_dateText hy1 hy2 hy3 hy4 hm1 hm2 hd1 hd2]
      unfold capsOf
      have e : 0 + 1 + X.length = (x :: X).length := by simp; omega
      rw [e]
      rfl
    · intro p Y hY
      cases hr : run ((Re.capture 2 dateField.thrice).seq Re.endText) (accept 0) p
          (Y ++ dateText y1 y2 y3 y4 m1 m2 d1 d2)
          (Function.update (fun _ => none) 1 (some (0, p))) with
      | none => rfl
      | some m => exact absurd (run_tail_some hr).1 (not_isTail_append_dateText hy4 hm2 hd2 hY)

theorem find_dateText {y1 y2 y3 y4 m1 m2 d1 d2 : Char}
    (hy1 : isDigit y1 = true) (hy2 : isDigit y2 = true) (hy3 : isDigit y3 = true)
    (hy4 : isDigit y4 = true) (hm1 : isDigit m1 = true) (hm2 : isDigit m2 = true)
    (hd1 : isDigit d1 = true) (hd2 : isDigit d2 = true) {P : List Char} (hP : P ≠ [])
    (hnl : ∀ x ∈ P, notNewline x = true) :
    FindStringSubmatch dailyIndex 2 (P ++ dateText y1 y2 y3 y4 m1 m2 d1 d2)
      = [P ++ dateText y1 y2 y3 y4 m1 m2 d1 d2, P, dateText y1 y2 y3 y4 m1 m2 d1 d2] := by
  apply find_of_caps rfl
  have hr := run_dailyIndex_dateText hy1 hy2 hy3 hy4 hm1 hm2 hd1 hd2 hP hnl
  cases hPD : P ++ dateText y1 y2 y3 y4 m1 m2 d1 d2 with
  | nil => rw [hPD] at hr; simpa [searchFrom] using hr
  | cons a as => rw [hPD] at hr; simp [searchFrom, hr]

theorem digitVal_le {c : Char} (h : isDigit c = true) : digitVal c ≤ 9 := by
  simp only [isDigit, decide_eq_true_eq] at h
  unfold digitVal; omega

theorem leadingInt_digit {c : Char} (cs : List Char) {x : Nat} (hc : isDigit c = true)
    (hx : x ≤ 999) : leadingInt (c :: cs) x = leadingInt cs (x * 10 + digitVal c) := by
  have := digitVal_le hc
  have h1 : ¬ x > 2 ^ 63 / 10 := by norm_num; omega
  have h2 : ¬ x * 10 + digitVal c > 2 ^ 63 := by norm_num; omega
  simp only [leadingInt, hc, if_true, h1, h2, if_false]

theorem leadingInt_stop {c : Char} (cs : List Char) (x : Nat) (hc : isDigit c = false) :
    leadingInt (c :: cs) x = some (x, c :: cs) := by
  simp [leadingInt, hc]

theorem atoi_four {a b c d : Char} (ha : isDigit a = true) :
    atoi [a, b, c, d] =
      if isDigit b = true ∧ isDigit c = true ∧ isDigit d = true then some (num4 a b c d : Int)
      else none := by
  have hm : a ≠ '-' := by rintro rfl; revert ha; decide
  have hp : a ≠ '+' := by rintro rfl; revert ha; decide
  have da := digitVal_le ha
  unfold atoi
  simp only [List.head?_cons, Option.some.injEq, hm, hp, or_self, if_false, decide_False]
  rw [leadingInt_digit _ ha (by omega)]
  by_cases hb : isDigit b = true
  · have db := digitVal_le hb
    rw [leadingInt_digit _ hb (by omega)]
    by_cases hc : isDigit c = true
    · have dc := digitVal_le hc
      rw [leadingInt_digit _ hc (by omega)]
      by_cases hd : isDigit d = true
      · rw [leadingInt_digit _ hd (by omega)]
        simp [leadingInt, hb, hc, hd, num4]
      · simp only [Bool.not_eq_true] at hd
        rw [leadingInt_stop _ _ hd]
        simp [hd]
    · simp only [Bool.not_eq_true] at hc
      rw [leadingInt_stop _ _ hc]
      simp [hc]
  · simp only [Bool.not_eq_true] at hb
    rw [leadingInt_stop _ _ hb]
    simp [hb]

theorem getnumFixed_some {s rest : List Char} {n : Nat} (h : getnumFixed s = some (n, rest)) :
    ∃ a b, s = a :: b :: rest ∧ isDigit a = true ∧ isDigit b = true ∧ n = num2 a b := by
  match s, h with
  | [], h => simp [getnumFixed, isDigitAt] at h
  | [_], h => simp [getnumFixed, isDigitAt] at h
  | a :: b :: r, h =>
    simp only [getnumFixed, isDigitAt, List.get?_cons_zero, List.get?_cons_succ] at h
    by_cases ha : isDigit a = true
    · by_cases hb : isDigit b = true
      · simp [ha, hb] at h
        exact ⟨a, b, by rw [h.2], ha, hb, by rw [← h.1]; rfl⟩
      · simp [ha, hb] at h
    · simp [ha] at h

theorem getnumFixed_cons {a b : Char} (rest : List Char) (ha : isDigit a = true)
    (hb : isDigit b = true) : getnumFixed (a :: b :: rest) = some (num2 a b, rest) := by
  simp [getnumFixed, isDigitAt, ha, hb, num2]

theorem skipDot_some {s rest : List Char} (h : skipDot s = some rest) : s = '.' :: rest := by
  cases s with
  | nil => simp [skipDot] at h
  | cons c cs =>
    simp only [skipDot] at h
    by_cases hc : c = '.'
    · simp [hc] at h; rw [hc, h]
    · simp [hc] at h

theorem timeParse_ok {v : List Char} {t : Time} (h : timeParse v = .ok t) :
    ∃ y1 y2 y3 y4 m1 m2 d1 d2, v = dateText y1 y2 y3 y4 m1 m2 d1 d2 ∧
      isDigit y1 = true ∧ isDigit y2 = true ∧ isDigit y3 = true ∧ isDigit y4 = true ∧
      isDigit m1 = true ∧ isDigit m2 = true ∧ isDigit d1 = true ∧ isDigit d2 = true ∧
      1 ≤ num2 m1 m2 ∧ num2 m1 m2 ≤ 12 ∧ 1 ≤ num2 d1 d2 ∧
      num2 d1 d2 ≤ daysIn (num2 m1 m2) (num4 y1 y2 y3 y4) ∧
      t = { year := num4 y1 y2 y3 y4, month := num2 m1 m2, day := num2 d1 d2 } := by
  rcases v with _ | ⟨y1, _ | ⟨y2, _ | ⟨y3, _ | ⟨y4, r⟩⟩⟩⟩
  · simp [timeParse] at h
  · simp [timeParse] at h
  · simp [timeParse] at h
  · simp [timeParse] at h
  · unfold timeParse at h
    by_cases hy1 : isDigit y1 = true
    · simp only [List.length_cons, isDigitAt, List.get?_cons_zero, hy1, List.take_succ_cons,
        List.take_zero, atoi_four hy1, List.drop_succ_cons, List.drop_zero] at h
      by_cases hy : isDigit y2 = true ∧ isDigit y3 = true ∧ isDigit y4 = true
      · rw [if_pos hy] at h
        have hlen : ¬ (r.length + 1 + 1 + 1 + 1 < 4) := by omega
        simp only [hlen, decide_False, Bool.not_true, Bool.or_self, Bool.false_eq_true,
          if_false] at h
        cases h1 : skipDot r with
        | none => rw [h1] at h; simp at h
        | some v1 =>
          rw [h1] at h
          simp only at h
          cases h2 : getnumFixed v1 with
          | none => rw [h2] at h; simp at h
          | some p2 =>
            obtain ⟨month, v2⟩ := p2
            rw [h2] at h
            simp only at h
            split at h
            · cases h
            · rename_i hmonth
              cases h3 : skipDot v2 with
              | none => rw [h3] at h; simp at h
              | some v3 =>
                rw [h3] at h
                simp only at h
                cases h4 : getnumFixed v3 with
                | none => rw [h4] at h; simp at h
                | some p4 =>
                  obtain ⟨day, v4⟩ := p4
                  rw [h4] at h
                  simp only at h
                  split at h
                  · cases h
                  · rename_i hextra
                    split at h
                    · cases h
                    · rename_i hday
                      obtain ⟨m1, m2, e2, hm1, hm2, emonth⟩ := getnumFixed_some h2
                      obtain ⟨d1, d2, e4, hd1, hd2, eday⟩ := getnumFixed_some h4
                      have e1 := skipDot_some h1
                      have e3 := skipDot_some h3
                      have e5 : v4 = [] := by
                        cases v4 with
                        | nil => rfl
                        | cons a b => simp at hextra
                      subst e5 e4 e3 e2 e1 emonth eday
                      simp only [Int.toNat_ofNat, Bool.or_eq_true, decide_eq_true_eq, not_or,
                        not_lt, not_le] at hmonth hday h
                      refine ⟨y1, y2, y3, y4, m1, m2, d1, d2, rfl, hy1, hy.1, hy.2.1, hy.2.2,
                        hm1, hm2, hd1, hd2, ?_, hmonth.2, hday.1, hday.2, ?_⟩
                      · omega
                      · simpa using h.symm
      · rw [if_neg hy] at h
        simp at h
    · simp [isDigitAt, hy1] at h

theorem timeParse_dateText {y1 y2 y3 y4 m1 m2 d1 d2 : Char}
    (hy1 : isDigit y1 = true) (hy2 : isDigit y2 = true) (hy3 : isDigit y3 = true)
    (hy4 : isDigit y4 = true) (hm1 : isDigit m1 = true) (hm2 : isDigit m2 = true)
    (hd1 : isDigit d1 = true) (hd2 : isDigit d2 = true)
    (hmlo : 1 ≤ num2 m1 m2) (hmhi : num2 m1 m2 ≤ 12) (hdlo : 1 ≤ num2 d1 d2)
    (hdhi : num2 d1 d2 ≤ daysIn (num2 m1 m2) (num4 y1 y2 y3 y4)) :
    timeParse (dateText y1 y2 y3 y4 m1 m2 d1 d2) =
      .ok { year := num4 y1 y2 y3 y4, month := num2 m1 m2, day := num2 d1 d2 } := by
  have a1 : ¬ (num2 m1 m2 ≤ 0) := by omega
  have a2 : ¬ (12 < num2 m1 m2) := by omega
  have a3 : ¬ (num2 d1 d2 < 1) := by omega
  have a4 : ¬ (num2 d1 d2 > daysIn (num2 m1 m2) (num4 y1 y2 y3 y4)) := by omega
  simp [timeParse, dateText, isDigitAt, hy1, atoi_four hy1, hy2, hy3, hy4, skipDot,
    getnumFixed_cons, hm1, hm2, hd1, hd2, a3, a4, hmhi, hdhi]
  omega

theorem ofNat_digitVal {c : Char} (h : isDigit c = true) : Char.ofNat (48 + digitVal c) = c := by
  simp only [isDigit, decide_eq_true_eq] at h
  have : 48 + digitVal c = c.toNat := by unfold digitVal; omega
  rw [this, Char.ofNat_toNat]

theorem appendInt_four (x : Nat) (hx : x < 10000) :
    appendInt x 4 = [Char.ofNat (48 + x / 1000), Char.ofNat (48 + x / 100 % 10),
      Char.ofNat (48 + x / 10 % 10), Char.ofNat (48 + x % 10)] := by
  unfold appendInt
  by_cases h1 : x ≥ 10
  · by_cases h2 : x / 10 ≥ 10
    · by_cases h3 : x / 10 / 10 ≥ 10
      · have h4 : ¬ x / 10 / 10 / 10 ≥ 10 := by omega
        have e1 : x / 1000 = x / 10 / 10 / 10 := by omega
        have e2 : x / 100 % 10 = x / 10 / 10 % 10 := by omega
        simp only [appendDigits, h1, h2, h3, h4, if_true, if_false, List.length_cons,
          List.length_nil]
        rw [e1, e2]
        rfl
      · have e1 : x / 1000 = 0 := by omega
        have e2 : x / 100 % 10 = x / 10 / 10 := by omega
        simp only [appendDigits, h1, h2, h3, if_true, if_false, List.length_cons,
          List.length_nil]
        rw [e1, e2]
        rfl
    · have e1 : x / 1000 = 0 := by omega
      have e2 : x / 100 % 10 = 0 := by omega
      have e3 : x / 10 % 10 = x / 10 := by omega
      simp only [appendDigits, h1, h2, if_true, if_false, List.length_cons, List.length_nil]
      rw [e1, e2, e3]
      rfl
  · have e1 : x / 1000 = 0 := by omega
    have e2 : x / 100 % 10 = 0 := by omega
    have e3 : x / 10 % 10 = 0 := by omega
    have e4 : x % 10 = x := by omega
    simp only [appendDigits, h1, if_false, List.length_cons, List.length_nil]
    rw [e1, e2, e3, e4]
    rfl

theorem appendInt_two (x : Nat) (hx : x < 100) :
    appendInt x 2 = [Char.ofNat (48 + x / 10), Char.ofNat (48 + x % 10)] := by
  unfold appendInt
  by_cases h1 : x ≥ 10
  · have h2 : ¬ x / 10 ≥ 10 := by omega
    simp only [appendDigits, h1, h2, if_true, if_false, List.length_cons, List.length_nil]
    rfl
  · have e1 : x / 10 = 0 := by omega
    have e2 : x % 10 = x := by omega
    simp only [appendDigits, h1, if_false, List.length_cons, List.length_nil]
    rw [e1, e2]
    rfl

theorem appendInt_num4 {a b c d : Char} (ha : isDigit a = true) (hb : isDigit b = true)
    (hc : isDigit c = true) (hd : isDigit d = true) : appendInt (num4 a b c d) 4 = [a, b, c, d] := by
  have da := digitVal_le ha
  have db := digitVal_le hb
  have dc := digitVal_le hc
  have dd := digitVal_le hd
  have e1 : num4 a b c d / 1000 = digitVal a := by unfold num4; omega
  have e2 : num4 a b c d / 100 % 10 = digitVal b := by unfold num4; omega
  have e3 : num4 a b c d / 10 % 10 = digitVal c := by unfold num4; omega
  have e4 : num4 a b c d % 10 = digitVal d := by unfold num4; omega
  rw [appendInt_four _ (by unfold num4; omega), e1, e2, e3, e4, ofNat_digitVal ha,
    ofNat_digitVal hb, ofNat_digitVal hc, ofNat_digitVal hd]

theorem appendInt_num2 {a b : Char} (ha : isDigit a = true) (hb : isDigit b = true) :
    appendInt (num2 a b) 2 = [a, b] := by
  have da := digitVal_le ha
  have db := digitVal_le hb
  have e1 : num2 a b / 10 = digitVal a := by unfold num2; omega
  have e2 : num2 a b % 10 = digitVal b := by unfold num2; omega
  rw [appendInt_two _ (by unfold num2; omega), e1, e2, ofNat_digitVal ha, ofNat_digitVal hb]

theorem Format_dateText {y1 y2 y3 y4 m1 m2 d1 d2 : Char}
    (hy1 : isDigit y1 = true) (hy2 : isDigit y2 = true) (hy3 : isDigit y3 = true)
    (hy4 : isDigit y4 = true) (hm1 : isDigit m1 = true) (hm2 : isDigit m2 = true)
    (hd1 : isDigit d1 = true) (hd2 : isDigit d2 = true) :
    Time.Format { year := num4 y1 y2 y3 y4, month := num2 m1 m2, day := num2 d1 d2 }
      = dateText y1 y2 y3 y4 m1 m2 d1 d2 := by
  simp [Time.Format, appendInt_num4 hy1 hy2 hy3 hy4, appendInt_num2 hm1 hm2,
    appendInt_num2 hd1 hd2, dateText]

theorem notNewline_iff (x : Char) : notNewline x = true ↔ x ≠ '\n' := by
  simp only [notNewline, decide_eq_true_eq]
  constructor
  · rintro h rfl; exact h rfl
  · intro h h1
    apply h
    rw [← Char.ofNat_toNat x, h1]

/-- The names on which `indexTime` succeeds, and the date it returns. -/
theorem indexTime_ok_iff (s : String) (t : Time) :
    indexTime s = .ok t ↔
      ∃ P y1 y2 y3 y4 m1 m2 d1 d2, s.toList = P ++ dateText y1 y2 y3 y4 m1 m2 d1 d2 ∧
        P ≠ [] ∧ (∀ x ∈ P, x ≠ '\n') ∧
        isDigit y1 = true ∧ isDigit y2 = true ∧ isDigit y3 = true ∧ isDigit y4 = true ∧
        isDigit m1 = true ∧ isDigit m2 = true ∧ isDigit d1 = true ∧ isDigit d2 = true ∧
        1 ≤ num2 m1 m2 ∧ num2 m1 m2 ≤ 12 ∧ 1 ≤ num2 d1 d2 ∧
        num2 d1 d2 ≤ daysIn (num2 m1 m2) (num4 y1 y2 y3 y4) ∧
        t = { year := num4 y1 y2 y3 y4, month := num2 m1 m2, day := num2 d1 d2 } := by
  constructor
  · intro h
    unfold indexTime at h
    rcases find_cases s.toList with hf | ⟨g1, g2, hf, hs, hne, hnl, _⟩
    · rw [hf] at h
      simp at h
    · rw [hf] at h
      simp only [List.length_cons, List.length_nil, List.getD_cons_succ, List.getD_cons_zero] at h
      cases hp : timeParse g2 with
      | error e => rw [hp] at h; simp at h
      | ok d =>
        rw [hp] at h
        have hd : d = t := by simpa using h
        subst hd
        obtain ⟨y1, y2, y3, y4, m1, m2, d1, d2, hg2, rest⟩ := timeParse_ok hp
        exact ⟨g1, y1, y2, y3, y4, m1, m2, d1, d2, by rw [hs, hg2], hne,
          fun x hx => (notNewline_iff x).1 (hnl x hx), rest⟩
  · rintro ⟨P, y1, y2, y3, y4, m1, m2, d1, d2, hs, hne, hnl, hy1, hy2, hy3, hy4, hm1, hm2, hd1,
      hd2, hmlo, hmhi, hdlo, hdhi, ht⟩
    unfold indexTime
    rw [hs, find_dateText hy1 hy2 hy3 hy4 hm1 hm2 hd1 hd2 hne
      (fun x hx => (notNewline_iff x).2 (hnl x hx))]
    simp only [List.length_cons, List.length_nil, List.getD_cons_succ, List.getD_cons_zero]
    rw [timeParse_dateText hy1 hy2 hy3 hy4 hm1 hm2 hd1 hd2 hmlo hmhi hdlo hdhi, ht]
    simp

theorem indexTime_roundtrip (s : String) (d : Time) (h : indexTime s = .ok d) :
    ∃ g0 g1 g2, FindStringSubmatch dailyIndex 2 s.toList = [g0, g1, g2] ∧
      d.Format = g2 ∧ d.Format <:+ s.toList := by
  obtain ⟨P, y1, y2, y3, y4, m1, m2, d1, d2, hs, hne, hnl, hy1, hy2, hy3, hy4, hm1, hm2, hd1,
      hd2, _, _, _, _, ht⟩ := (indexTime_ok_iff s d).1 h
  refine ⟨s.toList, P, dateText y1 y2 y3 y4 m1 m2 d1 d2, ?_, ?_, ?_⟩
  · rw [hs]
    exact find_dateText hy1 hy2 hy3 hy4 hm1 hm2 hd1 hd2 hne
      (fun x hx => (notNewline_iff x).2 (hnl x hx))
  · rw [ht]; exact Format_dateText hy1 hy2 hy3 hy4 hm1 hm2 hd1 hd2
  · rw [ht, Format_dateText hy1 hy2 hy3 hy4 hm1 hm2 hd1 hd2, hs]
    exact List.suffix_append _ _

theorem deleteRequest_inj {server a b : String} (h : deleteRequest server a = deleteRequest server b) :
    a = b := by
  simp only [deleteRequest, Request.mk.injEq, true_and] at h
  have h1 := congrArg String.data h
  simp only [String.data_append, List.append_assoc, List.append_cancel_left_eq] at h1
  exact String.ext h1

theorem deleteRequest_ne_aliasesRequest (server a : String) :
    deleteRequest server a ≠ aliasesRequest server := by
  intro h
  have := congrArg Request.method h
  simp [deleteRequest, aliasesRequest] at this

/-- What `deleteOldIndeces` does when some name is eligible. -/
theorem deleteOldIndeces_decoded (sortFn : Indices → Indices)
    (hsort : SortsWith lessName sortFn) (server : String) (skip : SkipFlag)
    (keys : List String) (deleteError : String → Option String)
    (hne : eligible keys skip ≠ []) :
    ∃ index rest, sortFn (eligible keys skip) = index :: rest ∧
      index ∈ eligible keys skip ∧ (∀ y ∈ eligible keys skip, lessName y index = false) ∧
      deleteOldIndeces sortFn server skip (.decoded keys) deleteError =
        .returned { requests := [aliasesRequest server, deleteRequest server index],
                    err := (deleteError index).map
                      fun e => "error deleting index " ++ index ++ ", " ++ e } := by
  obtain ⟨index, rest, hs, hmem, hmin⟩ := sorted_head sortFn hsort _ hne
  refine ⟨index, rest, hs, hmem, hmin, ?_⟩
  have hlen : ¬ (eligible keys skip).length = 0 := fun h => hne (List.length_eq_zero.1 h)
  simp only [deleteOldIndeces, hlen, if_false, hs]
  cases deleteError index <;> rfl

theorem Less_eq_lessName {is : Indices} {i j : Nat} {a b : String} (hi : is.get? i = some a)
    (hj : is.get? j = some b) : Indices.Less is i j = lessName a b := by
  unfold Indices.Less
  have e1 : is.getD i "" = a := by
    rw [List.getD_eq_getElem?_getD, ← List.get?_eq_getElem?, hi]; rfl
  have e2 : is.getD j "" = b := by
    rw [List.getD_eq_getElem?_getD, ← List.get?_eq_getElem?, hj]; rfl
  rw [e1, e2]

/-- A list in which no name is less than a name before it: the names with an age come
first, in non-decreasing order of date. -/
theorem sorted_dated_first (l : Indices) (hl : l.Pairwise (fun a b => lessName b a = false)) :
    ∃ dated undated, l = dated ++ undated ∧
      (∀ x ∈ dated, ∃ d, indexTime x = .ok d) ∧
      (∀ x ∈ undated, ∃ e, indexTime x = .error e) ∧
      dated.Pairwise (fun a b => ∀ da db, indexTime a = .ok da → indexTime b = .ok db →
        db.Before da = false) := by
  induction l with
  | nil => exact ⟨[], [], rfl, by simp, by simp, List.Pairwise.nil⟩
  | cons x rest ih =>
    rw [List.pairwise_cons] at hl
    obtain ⟨dated, undated, hrest, hd, hu, hp⟩ := ih hl.2
    cases hx : indexTime x with
    | ok dx =>
      refine ⟨x :: dated, undated, by simp [hrest], ?_, hu, ?_⟩
      · intro y hy
        rcases List.mem_cons.1 hy with rfl | hy1
        · exact ⟨dx, hx⟩
        · exact hd y hy1
      · rw [List.pairwise_cons]
        refine ⟨?_, hp⟩
        intro y hy da db ha hb
        have := hl.1 y (by rw [hrest]; exact List.mem_append_left _ hy)
        rwa [lessName_ok_ok hb ha] at this
    | error ex =>
      have hnone : dated = [] := by
        cases dated with
        | nil => rfl
        | cons y ys =>
          obtain ⟨dy, hy⟩ := hd y (by simp)
          have := hl.1 y (by rw [hrest]; simp)
          rw [lessName_ok_error hy hx] at this
          cases this
      subst hnone
      refine ⟨[], x :: rest, rfl, by simp, ?_, List.Pairwise.nil⟩
      intro y hy
      rcases List.mem_cons.1 hy with rfl | hy1
      · exact ⟨ex, hx⟩
      · exact hu y (by simpa [hrest] using hy1)

/-! Helper lemmas: `Time.Before` and the calendar -/

theorem days_eq (t : Time) :
    t.days = yearStart t.year + monthStart (isLeap t.year) t.month + ((t.day : Int) - 1) := by
  simp only [Time.days, yearStart, monthStart]
  split
  · simp_all; omega
  · simp_all

theorem yearStart_succ (y : Nat) :
    yearStart (y + 1) = yearStart y + 365 + (if isLeap y = true then 1 else 0) := by
  simp only [yearStart, isLeap, Bool.and_eq_true, Bool.or_eq_true, decide_eq_true_eq,
    Nat.cast_add, Nat.cast_one]
  split <;> omega

theorem yearStart_lt {y z : Nat} (h : y < z) :
    yearStart y + 365 + (if isLeap y = true then 1 else 0) ≤ yearStart z := by
  induction z with
  | zero => omega
  | succ z ih =>
    rcases Nat.lt_succ_iff_lt_or_eq.1 h with h1 | h1
    · have := ih h1
      have := yearStart_succ z
      split at this <;> omega
    · subst h1
      rw [yearStart_succ]

theorem monthStart_table :
    ∀ l : Bool, ∀ m, m < 13 → 1 ≤ m →
      (monthStart l m + (if (m = 2 && l) = true then 29
          else daysBefore.getD m 0 - daysBefore.getD (m - 1) 0) ≤ 365 + (if l = true then 1 else 0)) ∧
      ∀ n, n < 13 → m < n →
        monthStart l m + (if (m = 2 && l) = true then 29
          else daysBefore.getD m 0 - daysBefore.getD (m - 1) 0) ≤ monthStart l n := by
  decide

theorem days_lt_of_calendar {t u : Time} (ht : t.Valid) (hu : u.Valid)
    (h : t.year < u.year ∨ (t.year = u.year ∧
      (t.month < u.month ∨ (t.month = u.month ∧ t.day < u.day)))) : t.days < u.days := by
  obtain ⟨ty, tm, td⟩ := t
  obtain ⟨uy, um, ud⟩ := u
  obtain ⟨ht1, ht2, ht3, ht4⟩ := ht
  obtain ⟨hu1, hu2, hu3, hu4⟩ := hu
  simp only [daysIn] at ht1 ht2 ht3 ht4 hu1 hu2 hu3 hu4 h
  rw [days_eq, days_eq]
  simp only
  have bt := (monthStart_table (isLeap ty) tm (by omega) ht1).1
  rcases h with h | ⟨rfl, h⟩
  · have := yearStart_lt h
    split at this <;> simp_all <;> omega
  · rcases h with h | ⟨rfl, h⟩
    · have := (monthStart_table (isLeap ty) tm (by omega) ht1).2 um (by omega) h
      omega
    · omega

theorem Before_iff_calendar {t u : Time} (ht : t.Valid) (hu : u.Valid) :
    t.Before u = true ↔
      t.year < u.year ∨ (t.year = u.year ∧
        (t.month < u.month ∨ (t.month = u.month ∧ t.day < u.day))) := by
  simp only [Time.Before, decide_eq_true_eq]
  constructor
  · intro h
    by_contra hn
    have hrev : u.year < t.year ∨ (u.year = t.year ∧
        (u.month < t.month ∨ (u.month = t.month ∧ u.day ≤ t.day))) := by omega
    rcases hrev with h1 | ⟨h1, h2 | ⟨h2, h3⟩⟩
    · have := days_lt_of_calendar hu ht (Or.inl h1); omega
    · have := days_lt_of_calendar hu ht (Or.inr ⟨h1, Or.inl h2⟩); omega
    · rcases Nat.lt_or_eq_of_le h3 with h4 | h4
      · have := days_lt_of_calendar hu ht (Or.inr ⟨h1, Or.inr ⟨h2, h4⟩⟩); omega
      · have : t = u := by
          cases t; cases u; simp_all
        subst this; omega
  · exact days_lt_of_calendar ht hu

theorem indexTime_valid {s : String} {t : Time} (h : indexTime s = .ok t) : t.Valid := by
  obtain ⟨P, y1, y2, y3, y4, m1, m2, d1, d2, _, _, _, _, _, _, _, _, _, _, _, h1, h2, h3, h4,
    rfl⟩ := (indexTime_ok_iff s t).1 h
  exact ⟨h1, h2, h3, h4⟩

/-! ## The claims -/

/-- C1: when some non-skipped name of the listing has an age, `deleteOldIndeces` issues the
DELETE request for element 0 of the sorted non-skipped names, and that candidate is a
non-skipped name of the listing on which `indexTime` succeeds and whose date is not after
the date of any non-skipped name with an age. -/
theorem deleteOldIndeces_candidate_oldest (sortFn : Indices → Indices)
    (hsort : SortsWith lessName sortFn) (server : String) (skip : SkipFlag)
    (keys : List String) (deleteError : String → Option String)
    (hdated : ∃ x ∈ keys, SkipFlag.Has skip x = false ∧ ∃ dx, indexTime x = .ok dx) :
    ∃ cand d r,
      deleteOldIndeces sortFn server skip (.decoded keys) deleteError = .returned r ∧
      r.requests = [aliasesRequest server, deleteRequest server cand] ∧
      (sortFn (eligible keys skip)).head? = some cand ∧
      cand ∈ keys ∧ SkipFlag.Has skip cand = false ∧
      indexTime cand = .ok d ∧
      ∀ y ∈ keys, SkipFlag.Has skip y = false →
        ∀ dy, indexTime y = .ok dy → dy.Before d = false := by
  obtain ⟨x, hxk, hxs, dx, hdx⟩ := hdated
  have hxe : x ∈ eligible keys skip := by
    simp [eligible, List.mem_filter, hxk, hxs]
  have hne : eligible keys skip ≠ [] := List.ne_nil_of_mem hxe
  obtain ⟨cand, rest, hs, hmem, hmin, hrun⟩ :=
    deleteOldIndeces_decoded sortFn hsort server skip keys deleteError hne
  have hck : cand ∈ keys ∧ SkipFlag.Has skip cand = false := by
    simpa [eligible, List.mem_filter] using hmem
  have hcand : ∃ d, indexTime cand = .ok d := by
    cases hc : indexTime cand with
    | ok d => exact ⟨d, rfl⟩
    | error e =>
      have := hmin x hxe
      rw [lessName_ok_error hdx hc] at this
      cases this
  obtain ⟨d, hd⟩ := hcand
  refine ⟨cand, d, _, hrun, rfl, by rw [hs]; rfl, hck.1, hck.2, hd, ?_⟩
  intro y hyk hys dy hdy
  have hye : y ∈ eligible keys skip := by
    simp [eligible, List.mem_filter, hyk, hys]
  have := hmin y hye
  rwa [lessName_ok_ok hdy hd] at this

/-- C1, witness: the listing of the scenario, visited in an order that is not the sorted
one, with an empty skip list; the candidate is `app-2023.01.01`. -/
theorem deleteOldIndeces_candidate_oldest_witness :
    SortsWith lessName (insertionSort lessName) ∧
    deleteOldIndeces (insertionSort lessName) "http://localhost:9200" []
        (.decoded ["app-2023.06.15", "app-2024.02.10", "app-2023.01.01"]) (fun _ => none)
      = .returned
          { requests := [aliasesRequest "http://localhost:9200",
                         deleteRequest "http://localhost:9200" "app-2023.01.01"],
            err := none } ∧
    ∃ cand d r,
      deleteOldIndeces (insertionSort lessName) "http://localhost:9200" []
        (.decoded ["app-2023.06.15", "app-2024.02.10", "app-2023.01.01"]) (fun _ => none)
        = .returned r ∧
      r.requests = [aliasesRequest "http://localhost:9200",
                    deleteRequest "http://localhost:9200" cand] ∧
      (insertionSort lessName
        (eligible ["app-2023.06.15", "app-2024.02.10", "app-2023.01.01"] [])).head?
        = some cand ∧
      cand ∈ ["app-2023.06.15", "app-2024.02.10", "app-2023.01.01"] ∧
      SkipFlag.Has [] cand = false ∧
      indexTime cand = .ok d ∧
      ∀ y ∈ ["app-2023.06.15", "app-2024.02.10", "app-2023.01.01"],
        SkipFlag.Has [] y = false → ∀ dy, indexTime y = .ok dy → dy.Before d = false :=
  ⟨insertionSort_sortsWith, by decide,
   deleteOldIndeces_candidate_oldest (insertionSort lessName) insertionSort_sortsWith
     "http://localhost:9200" [] ["app-2023.06.15", "app-2024.02.10", "app-2023.01.01"]
     (fun _ => none)
     ⟨"app-2023.06.15", by decide, by decide, { year := 2023, month := 6, day := 15 },
      by decide⟩⟩

/-- C2: the eligible sequence holds exactly the names of the listing that equal no skip
entry, each as often as the listing holds it, and every index for which `deleteOldIndeces`
issues a DELETE request is such a name. -/
theorem eligible_exactly_not_skipped (sortFn : Indices → Indices)
    (hsort : SortsWith lessName sortFn) (server : String) (skip : SkipFlag)
    (keys : List String) (deleteError : String → Option String) :
    (∀ x, x ∈ eligible keys skip ↔ x ∈ keys ∧ ∀ e ∈ skip, x ≠ e) ∧
    (∀ x, (∀ e ∈ skip, x ≠ e) → (eligible keys skip).count x = keys.count x) ∧
    (∀ x, SkipFlag.Has skip x = true ↔ ∃ e ∈ skip, x = e) ∧
    ∀ r cand,
      deleteOldIndeces sortFn server skip (.decoded keys) deleteError = .returned r →
      deleteRequest server cand ∈ r.requests →
      cand ∈ keys ∧ (∀ e ∈ skip, cand ≠ e) ∧ (sortFn (eligible keys skip)).head? = some cand := by
  have hmem : ∀ x, x ∈ eligible keys skip ↔ x ∈ keys ∧ ∀ e ∈ skip, x ≠ e := by
    intro x
    rw [mem_eligible]
    constructor
    · rintro ⟨h1, h2⟩
      exact ⟨h1, fun e he hxe => h2 (hxe ▸ he)⟩
    · rintro ⟨h1, h2⟩
      exact ⟨h1, fun hx => h2 x hx rfl⟩
  refine ⟨hmem, ?_, ?_, ?_⟩
  · intro x hx
    have hx1 : SkipFlag.Has skip x = false := by
      cases h : SkipFlag.Has skip x with
      | false => rfl
      | true => exact absurd rfl (hx x ((SkipFlag.Has_iff skip x).1 h))
    unfold eligible
    rw [List.count_filter]
    simp [hx1]
  · intro x
    rw [SkipFlag.Has_iff]
    constructor
    · intro h; exact ⟨x, h, rfl⟩
    · rintro ⟨e, he, rfl⟩; exact he
  · intro r cand hrun hreq
    by_cases hne : eligible keys skip = []
    · simp only [deleteOldIndeces, hne, List.length_nil, if_true, Outcome.returned.injEq] at hrun
      rw [← hrun] at hreq
      simp only [List.mem_singleton] at hreq
      exact absurd hreq (deleteRequest_ne_aliasesRequest server cand)
    · obtain ⟨index, rest, hs, hin, _, hrun1⟩ :=
        deleteOldIndeces_decoded sortFn hsort server skip keys deleteError hne
      rw [hrun1] at hrun
      simp only [Outcome.returned.injEq] at hrun
      rw [← hrun] at hreq
      simp only [List.mem_cons, List.mem_singleton, List.not_mem_nil, or_false] at hreq
      rcases hreq with h | h
      · exact absurd h (deleteRequest_ne_aliasesRequest server cand)
      · have hc : cand = index := deleteRequest_inj h
        subst hc
        exact ⟨((hmem cand).1 hin).1, ((hmem cand).1 hin).2, by rw [hs]; rfl⟩

/-- C2, witness: the listing of the scenario with `app-2023.01.01` skipped; the candidate
is `app-2023.06.15`. -/
theorem eligible_exactly_not_skipped_witness :
    SortsWith lessName (insertionSort lessName) ∧
    eligible ["app-2023.01.01", "app-2023.06.15"] ["app-2023.01.01"] = ["app-2023.06.15"] ∧
    deleteOldIndeces (insertionSort lessName) "http://localhost:9200" ["app-2023.01.01"]
        (.decoded ["app-2023.01.01", "app-2023.06.15"]) (fun _ => none)
      = .returned
          { requests := [aliasesRequest "http://localhost:9200",
                         deleteRequest "http://localhost:9200" "app-2023.06.15"],
            err := none } ∧
    "app-2023.06.15" ∈ ["app-2023.01.01", "app-2023.06.15"] ∧
    (∀ e ∈ ["app-2023.01.01"], "app-2023.06.15" ≠ e) ∧
    (insertionSort lessName
      (eligible ["app-2023.01.01", "app-2023.06.15"] ["app-2023.01.01"])).head?
      = some "app-2023.06.15" :=
  ⟨insertionSort_sortsWith, by decide, by decide,
   (eligible_exactly_not_skipped (insertionSort lessName) insertionSort_sortsWith
      "http://localhost:9200" ["app-2023.01.01"] ["app-2023.01.01", "app-2023.06.15"]
      (fun _ => none)).2.2.2
      { requests := [aliasesRequest "http://localhost:9200",
                     deleteRequest "http://localhost:9200" "app-2023.06.15"],
        err := none }
      "app-2023.06.15" (by decide) (by decide)⟩

/-- C3: when every name of the listing is skip-listed (the empty listing included),
`deleteOldIndeces` returns the error `no indices to remove` and the only request it has
issued is the GET for the listing: no DELETE request. -/
theorem deleteOldIndeces_all_skipped (sortFn : Indices → Indices) (server : String)
    (skip : SkipFlag) (keys : List String) (deleteError : String → Option String)
    (hall : ∀ k ∈ keys, SkipFlag.Has skip k = true) :
    ∃ r, deleteOldIndeces sortFn server skip (.decoded keys) deleteError = .returned r ∧
      r.err = some "no indices to remove" ∧
      r.requests = [aliasesRequest server] ∧
      ∀ req ∈ r.requests, req.method ≠ Method.DELETE := by
  have hnil : eligible keys skip = [] := by
    unfold eligible
    rw [List.filter_eq_nil_iff]
    intro k hk
    simp [hall k hk]
  refine ⟨{ requests := [aliasesRequest server], err := some "no indices to remove" }, ?_,
    rfl, rfl, ?_⟩
  · simp [deleteOldIndeces, hnil]
  · intro req hreq
    simp only [List.mem_singleton] at hreq
    rw [hreq]
    simp [aliasesRequest]

/-- C3, witness: a listing of two names, both skip-listed. -/
theorem deleteOldIndeces_all_skipped_witness :
    (∀ k ∈ ["app-2023.01.01", "logs"],
      SkipFlag.Has ["logs", "app-2023.01.01"] k = true) ∧
    ∃ r, deleteOldIndeces (insertionSort lessName) "http://localhost:9200"
        ["logs", "app-2023.01.01"] (.decoded ["app-2023.01.01", "logs"]) (fun _ => none)
        = .returned r ∧
      r.err = some "no indices to remove" ∧
      r.requests = [aliasesRequest "http://localhost:9200"] ∧
      ∀ req ∈ r.requests, req.method ≠ Method.DELETE :=
  ⟨by decide,
   deleteOldIndeces_all_skipped (insertionSort lessName) "http://localhost:9200"
     ["logs", "app-2023.01.01"] ["app-2023.01.01", "logs"] (fun _ => none) (by decide)⟩

/-- C4: for a non-empty sequence of visited nodes, each with `total_bytes > 0`,
`0 <= available_bytes <= total_bytes` and `available_bytes * 100` below `2^63`,
`checkFreeSpace` returns without error, and reports `true` exactly when
`floor(available_bytes * 100 / total_bytes)` of the node visited last is strictly greater
than the threshold; the nodes visited earlier do not occur in the result. -/
theorem checkFreeSpace_last_node (earlier : List (String × NodeStatsNodeResponse))
    (last : String × NodeStatsNodeResponse) (space : Int)
    (h : ∀ n ∈ earlier ++ [last],
      0 < n.2.FS.Total.Total ∧ 0 ≤ n.2.FS.Total.Available ∧
      n.2.FS.Total.Available ≤ n.2.FS.Total.Total ∧ n.2.FS.Total.Available * 100 < 2 ^ 63) :
    ∃ ok, checkFreeSpace (.decoded { Nodes := earlier ++ [last] }) space = .returned (ok, none) ∧
      (ok = true ↔ last.2.FS.Total.Available * 100 / last.2.FS.Total.Total > space) := by
  refine ⟨decide (last.2.FS.Total.Available * 100 / last.2.FS.Total.Total > space),
    checkFreeSpace_last earlier last space h, ?_⟩
  simp

/-- C4, witness: two nodes; the node visited last has total 1000 and available 100
(10 percent), the earlier one has available 200 (20 percent); with threshold 15 the
result is `false`, and with the two nodes visited in the other order it is `true`. -/
theorem checkFreeSpace_last_node_witness :
    (∀ n ∈ [mkNode "n1" 1000 200] ++ [mkNode "n2" 1000 100],
      0 < n.2.FS.Total.Total ∧ 0 ≤ n.2.FS.Total.Available ∧
      n.2.FS.Total.Available ≤ n.2.FS.Total.Total ∧ n.2.FS.Total.Available * 100 < 2 ^ 63) ∧
    checkFreeSpace (.decoded { Nodes := [mkNode "n1" 1000 200, mkNode "n2" 1000 100] }) 15
      = .returned (false, none) ∧
    checkFreeSpace (.decoded { Nodes := [mkNode "n2" 1000 100, mkNode "n1" 1000 200] }) 15
      = .returned (true, none) ∧
    ∃ ok, checkFreeSpace
        (.decoded { Nodes := [mkNode "n1" 1000 200] ++ [mkNode "n2" 1000 100] }) 15
        = .returned (ok, none) ∧
      (ok = true ↔
        (mkNode "n2" 1000 100).2.FS.Total.Available * 100
          / (mkNode "n2" 1000 100).2.FS.Total.Total > 15) :=
  ⟨by decide, by decide, by decide,
   checkFreeSpace_last_node [mkNode "n1" 1000 200] (mkNode "n2" 1000 100) 15 (by decide)⟩

/-- C5: `Indices.Less(i, j)` is true exactly when `indexTime` succeeds on `is[i]` and
either fails on `is[j]` or gives a date strictly before that of `is[j]`.  Hence a name with
the strictly earlier date is less and not greater, a name without an age is less than
nothing, and a name with an age is less than every name without one.  A date is before
another, in the sense of `Time.Before`, exactly when it precedes it in the calendar. -/
theorem Less_iff_dated_and_earlier (is : Indices) (i j : Nat) (a b : String)
    (hi : is.get? i = some a) (hj : is.get? j = some b) :
    (Indices.Less is i j = true ↔
      ∃ da, indexTime a = .ok da ∧
        ((∃ e, indexTime b = .error e) ∨ ∃ db, indexTime b = .ok db ∧ da.Before db = true)) ∧
    (∀ da db, indexTime a = .ok da → indexTime b = .ok db → da.Before db = true →
      Indices.Less is i j = true ∧ Indices.Less is j i = false) ∧
    ((∃ e, indexTime a = .error e) → Indices.Less is i j = false) ∧
    (∀ da, indexTime a = .ok da → (∃ e, indexTime b = .error e) →
      Indices.Less is i j = true) ∧
    (∀ da db, indexTime a = .ok da → indexTime b = .ok db →
      (da.Before db = true ↔
        da.year < db.year ∨ (da.year = db.year ∧
          (da.month < db.month ∨ (da.month = db.month ∧ da.day < db.day))))) := by
  rw [Less_eq_lessName hi hj, Less_eq_lessName hj hi]
  refine ⟨lessName_iff a b, ?_, ?_, ?_, ?_⟩
  · intro da db ha hb hlt
    rw [lessName_ok_ok ha hb, lessName_ok_ok hb ha]
    exact ⟨hlt, Before_asymm hlt⟩
  · rintro ⟨e, he⟩
    exact lessName_of_error he b
  · rintro da ha ⟨e, he⟩
    exact lessName_ok_error ha he
  · intro da db ha hb
    exact Before_iff_calendar (indexTime_valid ha) (indexTime_valid hb)

/-- C5, witness: a slice of three names; the name with the earlier date has the later
prefix. -/
theorem Less_iff_dated_and_earlier_witness :
    List.get? ["zzz-2023.01.01", "app-2023.06.15", "logs"] 0 = some "zzz-2023.01.01" ∧
    List.get? ["zzz-2023.01.01", "app-2023.06.15", "logs"] 1 = some "app-2023.06.15" ∧
    Indices.Less ["zzz-2023.01.01", "app-2023.06.15", "logs"] 0 1 = true ∧
    Indices.Less ["zzz-2023.01.01", "app-2023.06.15", "logs"] 1 0 = false ∧
    Indices.Less ["zzz-2023.01.01", "app-2023.06.15", "logs"] 2 0 = false ∧
    Indices.Less ["zzz-2023.01.01", "app-2023.06.15", "logs"] 0 2 = true :=
  ⟨by decide, by decide,
   ((Less_iff_dated_and_earlier ["zzz-2023.01.01", "app-2023.06.15", "logs"] 0 1
      "zzz-2023.01.01" "app-2023.06.15" (by decide) (by decide)).2.1
      { year := 2023, month := 1, day := 1 } { year := 2023, month := 6, day := 15 }
      (by decide) (by decide) (by decide)).1,
   by decide, by decide, by decide⟩

/-- C6: the claim says that `checkFreeSpace` returns for every decoded response; at a node
whose `fs` section is absent (so that `total_in_bytes` is 0) the division of line 117
panics instead. -/
theorem checkFreeSpace_panics_on_zero_total :
    checkFreeSpace
        (.decoded { Nodes := [("n1", { Name := "n1", Host := "10.0.0.1",
                                       FS := NodeStatsFSResponse.zero })] }) 15
      = .panicked "runtime error: integer divide by zero" := by
  decide

/-- C7: when `indexTime` succeeds on a name with date `d`, the pattern has matched, and
formatting `d` in the layout `2006.01.02` gives exactly the text of group 2, which is a
suffix of the name. -/
theorem indexTime_format_roundtrip (s : String) (d : Time) (h : indexTime s = .ok d) :
    ∃ g0 g1 g2, FindStringSubmatch dailyIndex 2 s.toList = [g0, g1, g2] ∧
      d.Format = g2 ∧ d.Format <:+ s.toList :=
  indexTime_roundtrip s d h

/-- C7, witness: the name `app-2024.02.29`. -/
theorem indexTime_format_roundtrip_witness :
    indexTime "app-2024.02.29" = .ok { year := 2024, month := 2, day := 29 } ∧
    Time.Format { year := 2024, month := 2, day := 29 } = "2024.02.29".toList ∧
    ∃ g0 g1 g2, FindStringSubmatch dailyIndex 2 "app-2024.02.29".toList = [g0, g1, g2] ∧
      Time.Format { year := 2024, month := 2, day := 29 } = g2 ∧
      Time.Format { year := 2024, month := 2, day := 29 } <:+ "app-2024.02.29".toList :=
  ⟨by decide, by decide,
   indexTime_format_roundtrip "app-2024.02.29" { year := 2024, month := 2, day := 29 }
     (by decide)⟩

/-- C8: the comparison of `Indices.Less` is a strict weak ordering on names: it is
irreflexive and transitive, and incomparability is transitive.  Hence a list in which no
name is less than a name before it consists of the names with an age, in non-decreasing
order of date, followed by the names without an age. -/
theorem Less_strict_weak_order :
    (∀ a, lessName a a = false) ∧
    (∀ a b c, lessName a b = true → lessName b c = true → lessName a c = true) ∧
    (∀ a b c, lessName a b = false ∧ lessName b a = false →
      lessName b c = false ∧ lessName c b = false →
      lessName a c = false ∧ lessName c a = false) ∧
    (∀ (is : Indices) (i j : Nat) (a b : String), is.get? i = some a → is.get? j = some b →
      Indices.Less is i j = lessName a b) ∧
    ∀ l : Indices, l.Pairwise (fun a b => lessName b a = false) →
      ∃ dated undated, l = dated ++ undated ∧
        (∀ x ∈ dated, ∃ d, indexTime x = .ok d) ∧
        (∀ x ∈ undated, ∃ e, indexTime x = .error e) ∧
        dated.Pairwise (fun a b => ∀ da db, indexTime a = .ok da → indexTime b = .ok db →
          db.Before da = false) :=
  ⟨lessName_irrefl, fun _ _ _ h1 h2 => lessName_trans h1 h2,
   fun _ _ _ h1 h2 => ⟨lessName_negTrans h1.1 h2.1, lessName_negTrans h2.2 h1.2⟩,
   fun _ _ _ _ _ hi hj => Less_eq_lessName hi hj, sorted_dated_first⟩

/-- C9: `indexTime` succeeds on `s` with the date `t` exactly when `s` is a non-empty
text without a line feed followed by `YYYY.MM.DD`, four digits, a full stop, two digits
that denote a month from 1 to 12, a full stop and two digits that denote a day from 1 to
the number of days of that month in that year, and `t` is that year, month and day.  The
name `app-2023.01.01` has the age 2023-01-01; the seven names of the claim have no age. -/
theorem indexTime_succeeds_iff :
    (∀ (s : String) (t : Time), indexTime s = .ok t ↔
      ∃ P y1 y2 y3 y4 m1 m2 d1 d2, s.toList = P ++ [y1, y2, y3, y4, '.', m1, m2, '.', d1, d2] ∧
        P ≠ [] ∧ (∀ x ∈ P, x ≠ '\n') ∧
        isDigit y1 = true ∧ isDigit y2 = true ∧ isDigit y3 = true ∧ isDigit y4 = true ∧
        isDigit m1 = true ∧ isDigit m2 = true ∧ isDigit d1 = true ∧ isDigit d2 = true ∧
        1 ≤ num2 m1 m2 ∧ num2 m1 m2 ≤ 12 ∧ 1 ≤ num2 d1 d2 ∧
        num2 d1 d2 ≤ daysIn (num2 m1 m2) (num4 y1 y2 y3 y4) ∧
        t = { year := num4 y1 y2 y3 y4, month := num2 m1 m2, day := num2 d1 d2 }) ∧
    indexTime "app-2023.01.01" = .ok { year := 2023, month := 1, day := 1 } ∧
    (indexTime "logs").toOption = none ∧
    (indexTime "metrics-v2").toOption = none ∧
    (indexTime "app-20230101").toOption = none ∧
    (indexTime "app-23.01.01").toOption = none ∧
    (indexTime "app-2023.01.01.").toOption = none ∧
    (indexTime "app-2023.02.30").toOption = none ∧
    (indexTime "2023.01.01").toOption = none :=
  ⟨indexTime_ok_iff, by decide, by decide, by decide, by decide, by decide, by decide,
   by decide, by decide⟩

/-- C10: for a decoded response without nodes and a threshold that is not negative,
`checkFreeSpace` returns `(false, nil)`, and the inner loop of `main` then calls
`deleteOldIndeces`. -/
theorem checkFreeSpace_no_nodes (space : Int) (h : 0 ≤ space) :
    checkFreeSpace (.decoded { Nodes := [] }) space = .returned (false, none) ∧
    nextStep (false, none) = Step.deleteOldIndex := by
  refine ⟨?_, rfl⟩
  simp only [checkFreeSpace, freePercentLoop]
  have : ¬ (0 > space) := by omega
  simp [this]

/-- C10, witness: the default threshold 15. -/
theorem checkFreeSpace_no_nodes_witness :
    (0 : Int) ≤ 15 ∧
    checkFreeSpace (.decoded { Nodes := [] }) 15 = .returned (false, none) ∧
    nextStep (false, none) = Step.deleteOldIndex :=
  ⟨by decide, checkFreeSpace_no_nodes 15 (by decide)⟩

end Fitter
